import Mathlib

/-!
# Saturating counter vectors (`probabilistic/CounterVector.cc`)

A shallow embedding of `CounterVector` and of the operations built on it, of the merge
dispatch `BloomFilterVal::DoMerge` (`OpaqueVal.h`) and of the serialization of `CounterVector`.

* The underlying `BitVector` is a list of booleans; `bits_->Size()` is the length of the list.
  Every index the loops touch is below `Size() * width_`, hence below the length of the bit
  vector, so index arithmetic never wraps and is done in `Nat`.
* `size_t` and `count_type` are 64-bit unsigned integers, `int` is a 32-bit signed integer
  (LP64). Arithmetic that can leave these ranges is reduced explicitly.
* A call ends in one of three ways: it returns, an `assert` fires, or it executes an operation
  whose behaviour the language leaves undefined (division by zero, a shift by at least the
  width of the shifted type).
-/

namespace probabilistic

/-- Number of value bits of `size_t` (`std::numeric_limits<size_t>::digits`). -/
def sizeDigits : Nat := 64

/-- Modelled from the spec: the typedef `count_type` lives in `CounterVector.h`, which is not
among the sources; the spec calls counts unsigned integers. It is taken to be 64 bits wide,
as the `size_t` in which `Count` accumulates its result and the `uint64` of the serializer. -/
def countDigits : Nat := 64

/-- How a call of the embedded code ends. -/
inductive Outcome (α : Type) where
  | done (a : α) : Outcome α
  | assertFailed : Outcome α
  | undefinedBehaviour : Outcome α
  deriving DecidableEq, Repr

namespace Outcome

/-- Sequencing: the first call that does not return decides the outcome. -/
def bind {α β : Type} (x : Outcome α) (f : α → Outcome β) : Outcome β :=
  match x with
  | done a => f a
  | assertFailed => assertFailed
  | undefinedBehaviour => undefinedBehaviour

instance : Monad Outcome where
  pure := done
  bind := bind

/-- The C `assert(c)`. -/
def check (c : Bool) : Outcome Unit :=
  if c then done () else assertFailed

end Outcome

open Outcome

/-- The two data members of `CounterVector`: the bit vector `bits_` and `width_`. -/
structure CounterVector where
  bits : List Bool
  width : Nat
  deriving DecidableEq, Repr

/-- The `int` expression `1 << i`, converted to `count_type` for the `&` with `value`.
For `i < 31` it is `2^i`. For `i = 31` the shift yields `INT_MIN`, whose conversion to the
64-bit unsigned type sets bits 31 to 63. A shift of an `int` by 32 or more is undefined. -/
def oneShl (i : Nat) : Outcome Nat :=
  if i < 31 then done (2 ^ i)
  else if i = 31 then done (2 ^ countDigits - 2 ^ 31)
  else undefinedBehaviour

/-- The `bool b2 = value & (1 << i)` of `Increment` and `Decrement`. -/
def valueBit (value i : Nat) : Outcome Bool := do
  let m ← oneShl i
  pure (decide (value &&& m ≠ 0))

/-- The `bool b2 = (*other.bits_)[lsb + i]` of `Merge`. -/
def otherBit (other : List Bool) (lsb i : Nat) : Outcome Bool :=
  pure (other.getD (lsb + i) false)

/-- The ripple-carry loop shared verbatim by `Increment`, `Decrement` and `Merge`:
`for (i = 0; i < n; ++i) { b1 = bits[lsb+i]; b2 = ...; bits[lsb+i] = b1 ^ b2 ^ carry;
carry = (b1 && b2) || (carry && (b1 != b2)); }`, started with `carry = false`.
`rippleLoop lsb b2 n bits` runs the iterations `0, ..., n-1` in this order and returns the
bits and the carry. -/
def rippleLoop (lsb : Nat) (b2 : Nat → Outcome Bool) : Nat → List Bool → Outcome (List Bool × Bool)
  | 0, bits => pure (bits, false)
  | i + 1, bits => do
    let (bs, carry) ← rippleLoop lsb b2 i bits
    let b1 := bs.getD (lsb + i) false
    let b ← b2 i
    pure (bs.set (lsb + i) (xor (xor b1 b) carry), (b1 && b) || (carry && (b1 != b)))

/-- The saturation loop `for (i = 0; i < n; ++i) bits_->Set(lsb + i);`. -/
def setLoop (lsb : Nat) : Nat → List Bool → List Bool
  | 0, bits => bits
  | i + 1, bits => (setLoop lsb i bits).set (lsb + i) true

namespace CounterVector

/-- `CounterVector::CounterVector(width, cells)`: a zeroed bit vector of `width * cells` bits,
the product being a `size_t`. -/
def new (width cells : Nat) : CounterVector :=
  ⟨List.replicate ((width * cells) % 2 ^ sizeDigits) false, width⟩

/-- `CounterVector::Size`: `bits_->Size() / width_`; dividing by zero is undefined. -/
def Size (cv : CounterVector) : Outcome Nat :=
  if cv.width = 0 then undefinedBehaviour else done (cv.bits.length / cv.width)

/-- `CounterVector::Width`. -/
def Width (cv : CounterVector) : Nat := cv.width

/-- `CounterVector::Max`: the all-ones `size_t` shifted right by `digits - width_`, the
difference taken in `size_t`; a shift by 64 or more is undefined. -/
def Max (cv : CounterVector) : Outcome Nat :=
  let sh := (sizeDigits + (2 ^ sizeDigits - cv.width % 2 ^ sizeDigits)) % 2 ^ sizeDigits
  if sh < sizeDigits then done ((2 ^ sizeDigits - 1) >>> sh) else undefinedBehaviour

/-- `CounterVector::Increment`. Returns the updated vector and the returned `bool`. -/
def Increment (cv : CounterVector) (cell value : Nat) : Outcome (CounterVector × Bool) := do
  let size ← cv.Size
  check (decide (cell < size))
  check (decide (value ≠ 0))
  let lsb := cell * cv.width
  let (bits, carry) ← rippleLoop lsb (valueBit value) cv.width cv.bits
  let bits := if carry then setLoop lsb cv.width bits else bits
  pure (⟨bits, cv.width⟩, !carry)

/-- `CounterVector::Decrement`. `value = ~value + 1` is computed in `count_type`. -/
def Decrement (cv : CounterVector) (cell value : Nat) : Outcome (CounterVector × Bool) := do
  let size ← cv.Size
  check (decide (cell < size))
  check (decide (value ≠ 0))
  let value := ((2 ^ countDigits - 1 - value) + 1) % 2 ^ countDigits
  let lsb := cell * cv.width
  let (bits, carry) ← rippleLoop lsb (valueBit value) cv.width cv.bits
  pure (⟨bits, cv.width⟩, carry)

/-- The loop of `Count`: `for (i = lsb; i < lsb + width_; ++i, order <<= 1)
if (bits[i]) cnt |= order;` with `cnt` and `order` of type `size_t`.
`countLoop bits lsb n` is the pair `(cnt, order)` after `n` iterations. -/
def countLoop (bits : List Bool) (lsb : Nat) : Nat → Nat × Nat
  | 0 => (0, 1)
  | n + 1 =>
    let (cnt, order) := countLoop bits lsb n
    (if bits.getD (lsb + n) false then cnt ||| order else cnt, (order <<< 1) % 2 ^ sizeDigits)

/-- `CounterVector::Count`; the `size_t` result is returned as a `count_type`. -/
def Count (cv : CounterVector) (cell : Nat) : Outcome Nat := do
  let size ← cv.Size
  check (decide (cell < size))
  pure ((countLoop cv.bits (cell * cv.width) cv.width).1 % 2 ^ countDigits)

/-- The outer loop of `Merge` over the cells `0, ..., n-1`; for each cell the ripple-carry
loop against the bits of `other` and, on a carry, the saturation loop. -/
def mergeLoop (width : Nat) (other : List Bool) : Nat → List Bool → Outcome (List Bool)
  | 0, bits => pure bits
  | cell + 1, bits => do
    let bits ← mergeLoop width other cell bits
    let lsb := cell * width
    let (bs, carry) ← rippleLoop lsb (otherBit other lsb) width bits
    pure (if carry then setLoop lsb width bs else bs)

/-- `CounterVector::Merge`. `Size()` in the loop condition does not change during the loop,
since no write changes the length of the bit vector. -/
def Merge (cv other : CounterVector) : Outcome CounterVector := do
  let size ← cv.Size
  let osize ← other.Size
  check (decide (size = osize))
  check (decide (cv.Width = other.Width))
  let bits ← mergeLoop cv.width other.bits size cv.bits
  pure ⟨bits, cv.width⟩

/-- `operator|`: copy `x`, then `cv |= y`, which is `cv.Merge(y)`. -/
def or (x y : CounterVector) : Outcome CounterVector :=
  let cv : CounterVector := ⟨x.bits, x.width⟩
  cv.Merge y

end CounterVector

/-! ## Reference semantics used in the statements -/

/-- The unsigned number written by the `n` bits of `bits` from position `lsb` on, least
significant bit first. -/
def cellVal (bits : List Bool) (lsb : Nat) : Nat → Nat
  | 0 => 0
  | n + 1 => cellVal bits lsb n + (if bits.getD (lsb + n) false then 2 ^ n else 0)

/-- The number whose binary digits are `f 0, ..., f (n-1)`, least significant first. -/
def fnVal (f : Nat → Bool) : Nat → Nat
  | 0 => 0
  | n + 1 => fnVal f n + (if f n then 2 ^ n else 0)

/-- The ripple-carry loop for a second operand whose bits are always defined. -/
def ripple (lsb : Nat) (f : Nat → Bool) : Nat → List Bool → List Bool × Bool
  | 0, bits => (bits, false)
  | i + 1, bits =>
    let r := ripple lsb f i bits
    let b1 := r.1.getD (lsb + i) false
    (r.1.set (lsb + i) (xor (xor b1 (f i)) r.2), (b1 && f i) || (r.2 && (b1 != f i)))

/-- The bit that `value & (1 << i)` tests when `i ≤ 31`, where the shift is defined. -/
def effBit (value i : Nat) : Bool :=
  decide (value &&& (if i < 31 then 2 ^ i else 2 ^ 64 - 2 ^ 31) ≠ 0)

/-- The bits after one cell's saturating addition: the ripple-carry loop followed, when the
final carry is set, by the saturation loop. -/
def satAddBits (lsb w : Nat) (f : Nat → Bool) (bits : List Bool) : List Bool :=
  if (ripple lsb f w bits).2 then setLoop lsb w (ripple lsb f w bits).1
  else (ripple lsb f w bits).1

/-- A caller issuing a sequence of `Increment(cell, value)` calls, ignoring the results. -/
def incrementAll (cv : CounterVector) : List (Nat × Nat) → Outcome CounterVector
  | [] => pure cv
  | op :: rest => do
    let r ← cv.Increment op.1 op.2
    incrementAll r.1 rest

/-- A caller issuing `n` calls `Increment(cell, 1)`; the result carries the vector after the
calls and the value returned by the last call (`true` when there was no call). -/
def incrementTimes (cv : CounterVector) (cell : Nat) : Nat → Outcome (CounterVector × Bool)
  | 0 => pure (cv, true)
  | n + 1 => do
    let r ← incrementTimes cv cell n
    r.1.Increment cell 1

/-- The bits after the outer loop of `Merge` over the cells `0, ..., n-1`. -/
def mergeBits (w : Nat) (other : List Bool) : Nat → List Bool → List Bool
  | 0, bits => bits
  | c + 1, bits =>
    satAddBits (c * w) w (fun i => other.getD (c * w + i) false) (mergeBits w other c bits)

/-- Modelled from the spec: `CountingBloomFilter::CountImpl` is defined in `BloomFilter.cc`,
which is not among the sources. Per the spec, `count(value)` "returns the minimum of the k
indexed counter values"; `minCount cv i rest` is that minimum over the cells `i :: rest`. -/
def minCount (cv : CounterVector) (i : Nat) : List Nat → Outcome Nat
  | [] => cv.Count i
  | j :: rest => do
    let c ← cv.Count i
    let r ← minCount cv j rest
    pure (min c r)

/-- A counting filter's cells after one element, hashed to the cells 7, 19 and 33 of a
width-3 vector of 50 cells, was added twice. -/
def barTwice : CounterVector :=
  match incrementAll (CounterVector.new 3 50) [(7, 1), (19, 1), (33, 1), (7, 1), (19, 1), (33, 1)] with
  | done cv => cv
  | _ => CounterVector.new 3 50

/-! ## `BloomFilterVal::DoMerge` (`OpaqueVal.h`) -/

/-- The concrete filter classes declared in `BloomFilter.h`: what `typeid` tells apart. -/
inductive FilterKind where
  | BasicBloomFilter : FilterKind
  | CountingBloomFilter : FilterKind
  deriving DecidableEq, Repr

/-- The object behind a `BloomFilter*`: a `BasicBloomFilter` with its bit vector `bits_`, or a
`CountingBloomFilter` with its counter vector `cells_`. -/
inductive BloomFilter where
  | basic (bits : List Bool) : BloomFilter
  | counting (cells : CounterVector) : BloomFilter
  deriving DecidableEq, Repr

/-- The `typeid` of the object a `BloomFilter*` points to. -/
def BloomFilter.typeid : BloomFilter → FilterKind
  | BloomFilter.basic _ => FilterKind.BasicBloomFilter
  | BloomFilter.counting _ => FilterKind.CountingBloomFilter

/-- The members of `BloomFilterVal` that `DoMerge` reads: `type_` (a `BroType*`, null for an
untyped value; types are identified by a number) and `bloom_filter_`. -/
structure BloomFilterVal where
  type_ : Option Nat
  bloom_filter_ : BloomFilter
  deriving DecidableEq, Repr

/-- The two messages `DoMerge` passes to `reporter->InternalError`. -/
inductive InternalErrorMsg where
  | cannotMergeDifferentTypes : InternalErrorMsg
  | failedToSetType : InternalErrorMsg
  deriving DecidableEq, Repr

/-- What a call of `DoMerge` yields: the merged value, a null pointer without a report, or an
internal error reported with its message (after which no value is returned). -/
inductive MergeResult where
  | merged (v : BloomFilterVal) : MergeResult
  | null : MergeResult
  | internalError (msg : InternalErrorMsg) : MergeResult
  deriving DecidableEq, Repr

/-- `BloomFilterVal::DoMerge<T>(x, y)`. `T::Merge` (`BloomFilter.cc`) and `Typify`
(`OpaqueVal.cc`) are not among the sources and are parameters: `Merge T a b` runs
`T::Merge(a, b)`, which may itself fail an assertion, and `Typify v t` is the value after
`v->Typify(t)`, or `none` when `Typify` returns `false`. `new BloomFilterVal(bf)` is the
untyped value holding `bf`. -/
def DoMerge (T : FilterKind) (Merge : FilterKind → BloomFilter → BloomFilter → Outcome BloomFilter)
    (Typify : BloomFilterVal → Option Nat → Option BloomFilterVal) (x y : BloomFilterVal) :
    Outcome MergeResult :=
  if x.bloom_filter_.typeid ≠ y.bloom_filter_.typeid then
    pure (MergeResult.internalError InternalErrorMsg.cannotMergeDifferentTypes)
  else if T ≠ x.bloom_filter_.typeid then
    pure MergeResult.null
  else do
    let bf ← Merge T x.bloom_filter_ y.bloom_filter_
    let merged : BloomFilterVal := ⟨none, bf⟩
    match Typify merged x.type_ with
    | none => pure (MergeResult.internalError InternalErrorMsg.failedToSetType)
    | some typed => pure (MergeResult.merged typed)

/-! ## Serialization of `CounterVector` -/

/-- Modelled from the spec: the serialization framework (`Serializer.h`, `SerialObj` and the
macros `DO_SERIALIZE`, `DO_UNSERIALIZE`, `SERIALIZE`, `UNSERIALIZE`) and the serialization of
`BitVector` are not among the sources. Per the spec the bit array and the parameters
"serialize/restore to/from an opaque byte stream, round-trip exact". A stream is the sequence
of fields written to it: the data of the parent class `SerialObj`, a bit vector, or a 64-bit
unsigned integer. -/
inductive SerialField where
  | serialObj : SerialField
  | bitVector (bits : List Bool) : SerialField
  | uint64 (n : Nat) : SerialField
  deriving DecidableEq, Repr

/-- Modelled from the spec: `SerialObj::DoSerialize`, run by `DO_SERIALIZE`; it appends the
parent's data. -/
def SerialObj.DoSerialize (s : List SerialField) : Option (List SerialField) :=
  some (s ++ [SerialField.serialObj])

/-- Modelled from the spec: `SerialObj::DoUnserialize`, run by `DO_UNSERIALIZE`; it takes the
parent's data from the front of the stream and fails on any other field. -/
def SerialObj.DoUnserialize : List SerialField → Option (List SerialField)
  | SerialField.serialObj :: rest => some rest
  | _ => none

/-- Modelled from the spec: `BitVector::Serialize`; it appends the bit vector. -/
def BitVector.Serialize (bits : List Bool) (s : List SerialField) : Option (List SerialField) :=
  some (s ++ [SerialField.bitVector bits])

/-- Modelled from the spec: `BitVector::Unserialize`; it takes a bit vector from the front of
the stream and yields no object (a null pointer) on any other field. -/
def BitVector.Unserialize : List SerialField → Option (List Bool × List SerialField)
  | SerialField.bitVector bits :: rest => some (bits, rest)
  | _ => none

/-- Modelled from the spec: `SERIALIZE` applied to a `uint64`; it appends the integer. -/
def SERIALIZE (n : Nat) (s : List SerialField) : Option (List SerialField) :=
  some (s ++ [SerialField.uint64 (n % 2 ^ 64)])

/-- Modelled from the spec: `UNSERIALIZE` applied to a `uint64*`; it takes a 64-bit integer
from the front of the stream and fails on any other field. -/
def UNSERIALIZE : List SerialField → Option (Nat × List SerialField)
  | SerialField.uint64 n :: rest => some (n, rest)
  | _ => none

/-- `CounterVector::DoSerialize`: the parent's data, then the bits, then
`static_cast<uint64>(width_)`; `none` stands for `return false`. -/
def CounterVector.DoSerialize (cv : CounterVector) (s : List SerialField) :
    Option (List SerialField) := do
  let s ← SerialObj.DoSerialize s
  let s ← BitVector.Serialize cv.bits s
  SERIALIZE (cv.width % 2 ^ 64) s

/-- `CounterVector::DoUnserialize`: the parent's data, then `bits_`, then the `uint64` width
cast to `size_t`. It yields the object read and the rest of the stream; `none` stands for
`return false`. -/
def CounterVector.DoUnserialize (s : List SerialField) :
    Option (CounterVector × List SerialField) := do
  let s ← SerialObj.DoUnserialize s
  let (bits, s) ← BitVector.Unserialize s
  let (width, s) ← UNSERIALIZE s
  pure (⟨bits, width % 2 ^ sizeDigits⟩, s)

/-! ## Outcome plumbing -/

namespace Outcome

@[simp] theorem pure_eq {α : Type} (a : α) : (pure a : Outcome α) = done a := rfl

@[simp] theorem done_bind {α β : Type} (a : α) (f : α → Outcome β) :
    (done a >>= f) = f a := rfl

@[simp] theorem assertFailed_bind {α β : Type} (f : α → Outcome β) :
    ((assertFailed : Outcome α) >>= f) = assertFailed := rfl

@[simp] theorem undefinedBehaviour_bind {α β : Type} (f : α → Outcome β) :
    ((undefinedBehaviour : Outcome α) >>= f) = undefinedBehaviour := rfl

@[simp] theorem check_true : check true = done () := rfl

@[simp] theorem check_false : check false = assertFailed := rfl

end Outcome

/-! ## Bit-list lemmas -/

theorem getD_set_eq (l : List Bool) (i j : Nat) (a : Bool) :
    (l.set i a).getD j false = if i = j ∧ i < l.length then a else l.getD j false := by
  simp only [List.getD_eq_getElem?_getD, List.getElem?_set]
  by_cases h : i = j
  · subst h
    by_cases h2 : i < l.length
    · simp [h2]
    · have : l[i]? = none := List.getElem?_eq_none (by omega)
      simp [h2, this]
  · simp [h]

theorem cellVal_lt (bits : List Bool) (lsb n : Nat) : cellVal bits lsb n < 2 ^ n := by
  induction n with
  | zero => simp [cellVal]
  | succ n ih =>
    simp only [cellVal, pow_succ]
    split <;> omega

theorem fnVal_lt (f : Nat → Bool) (n : Nat) : fnVal f n < 2 ^ n := by
  induction n with
  | zero => simp [fnVal]
  | succ n ih =>
    simp only [fnVal, pow_succ]
    split <;> omega

theorem cellVal_congr (bs bits : List Bool) (lsb n : Nat)
    (h : ∀ i, i < n → bs.getD (lsb + i) false = bits.getD (lsb + i) false) :
    cellVal bs lsb n = cellVal bits lsb n := by
  induction n with
  | zero => rfl
  | succ n ih =>
    simp only [cellVal]
    rw [ih (fun i hi => h i (by omega)), h n (by omega)]

theorem fnVal_congr (f g : Nat → Bool) (n : Nat) (h : ∀ i, i < n → f i = g i) :
    fnVal f n = fnVal g n := by
  induction n with
  | zero => rfl
  | succ n ih =>
    simp only [fnVal]
    rw [ih (fun i hi => h i (by omega)), h n (by omega)]

theorem fnVal_testBit (v n : Nat) : fnVal (fun i => v.testBit i) n = v % 2 ^ n := by
  induction n with
  | zero => simp [fnVal, Nat.mod_one]
  | succ n ih =>
    simp only [fnVal, ih]
    have hm : v % 2 ^ (n + 1) = v % 2 ^ n + 2 ^ n * (v / 2 ^ n % 2) := Nat.mod_pow_succ
    have ht : v.testBit n = decide (v / 2 ^ n % 2 = 1) := Nat.testBit_to_div_mod
    have h2 : v / 2 ^ n % 2 = 0 ∨ v / 2 ^ n % 2 = 1 := by omega
    rcases h2 with h2 | h2 <;> simp [hm, ht, h2]

theorem cellVal_getD (bits : List Bool) (lsb n : Nat) :
    cellVal bits lsb n = fnVal (fun i => bits.getD (lsb + i) false) n := by
  induction n with
  | zero => rfl
  | succ n ih => simp only [cellVal, fnVal, ih]


/-! ## The ripple-carry loop and the saturation loop -/

theorem rippleLoop_eq (lsb : Nat) (b2 : Nat → Outcome Bool) (f : Nat → Bool) (n : Nat)
    (bits : List Bool) (h : ∀ i, i < n → b2 i = done (f i)) :
    rippleLoop lsb b2 n bits = done (ripple lsb f n bits) := by
  induction n with
  | zero => rfl
  | succ n ih =>
    simp only [rippleLoop]
    rw [ih (fun i hi => h i (by omega)), h n (by omega)]
    simp [ripple]

theorem ripple_length (lsb : Nat) (f : Nat → Bool) (n : Nat) (bits : List Bool) :
    (ripple lsb f n bits).1.length = bits.length := by
  induction n with
  | zero => rfl
  | succ n ih => simp [ripple, ih]

theorem ripple_getD_out (lsb : Nat) (f : Nat → Bool) (n : Nat) (bits : List Bool) (j : Nat)
    (hj : j < lsb ∨ lsb + n ≤ j) :
    (ripple lsb f n bits).1.getD j false = bits.getD j false := by
  induction n with
  | zero => rfl
  | succ n ih =>
    simp only [ripple]
    rw [getD_set_eq, if_neg (by omega), ih (by omega)]

theorem fullAdder_arith (c b1 b2 : Bool) (A X Y P : Nat)
    (h : A + (if c then P else 0) = X + Y) :
    (A + if xor (xor b1 b2) c then P else 0)
        + (if (b1 && b2) || (c && (b1 != b2)) then 2 * P else 0)
      = (X + if b1 then P else 0) + (Y + if b2 then P else 0) := by
  cases c <;> cases b1 <;> cases b2 <;> simp at h ⊢ <;> omega

theorem ripple_val (lsb : Nat) (f : Nat → Bool) (n : Nat) (bits : List Bool)
    (h : lsb + n ≤ bits.length) :
    cellVal (ripple lsb f n bits).1 lsb n + (if (ripple lsb f n bits).2 then 2 ^ n else 0)
      = cellVal bits lsb n + fnVal f n := by
  induction n with
  | zero => simp [ripple, cellVal, fnVal]
  | succ n ih =>
    have ih := ih (by omega)
    have hb1 : (ripple lsb f n bits).1.getD (lsb + n) false = bits.getD (lsb + n) false :=
      ripple_getD_out lsb f n bits (lsb + n) (Or.inr (Nat.le_refl _))
    have hlen : lsb + n < (ripple lsb f n bits).1.length := by
      rw [ripple_length]; omega
    have hcong : ∀ b, cellVal ((ripple lsb f n bits).1.set (lsb + n) b) lsb n
        = cellVal (ripple lsb f n bits).1 lsb n := by
      intro b
      apply cellVal_congr
      intro i hi
      rw [getD_set_eq, if_neg (by omega)]
    simp only [ripple, cellVal, fnVal, hcong, getD_set_eq, hlen, and_self, if_true, hb1,
      pow_succ, Nat.mul_comm _ 2]
    exact fullAdder_arith _ _ _ _ _ _ _ ih

theorem setLoop_length (lsb n : Nat) (bits : List Bool) :
    (setLoop lsb n bits).length = bits.length := by
  induction n with
  | zero => rfl
  | succ n ih => simp [setLoop, ih]

theorem setLoop_getD (lsb n : Nat) (bits : List Bool) (j : Nat) :
    (setLoop lsb n bits).getD j false
      = if lsb ≤ j ∧ j < lsb + n ∧ j < bits.length then true else bits.getD j false := by
  induction n with
  | zero =>
    simp only [setLoop]
    rw [if_neg (by omega)]
  | succ n ih =>
    simp only [setLoop]
    rw [getD_set_eq, setLoop_length, ih]
    by_cases h1 : lsb + n = j ∧ lsb + n < bits.length
    · rw [if_pos h1, if_pos (by omega)]
    · rw [if_neg h1]
      by_cases h2 : lsb ≤ j ∧ j < lsb + n ∧ j < bits.length
      · rw [if_pos h2, if_pos (by omega)]
      · rw [if_neg h2]
        by_cases h3 : lsb ≤ j ∧ j < lsb + (n + 1) ∧ j < bits.length
        · exfalso; omega
        · rw [if_neg h3]

theorem cellVal_all_true (bits : List Bool) (lsb n : Nat)
    (h : ∀ i, i < n → bits.getD (lsb + i) false = true) : cellVal bits lsb n = 2 ^ n - 1 := by
  induction n with
  | zero => rfl
  | succ n ih =>
    simp only [cellVal]
    rw [ih (fun i hi => h i (by omega)), h n (by omega)]
    have : 0 < 2 ^ n := Nat.two_pow_pos n
    simp only [if_true, pow_succ]
    omega

theorem setLoop_val (lsb n : Nat) (bits : List Bool) (h : lsb + n ≤ bits.length) :
    cellVal (setLoop lsb n bits) lsb n = 2 ^ n - 1 := by
  apply cellVal_all_true
  intro i hi
  rw [setLoop_getD, if_pos (by omega)]

/-- One cell's saturating addition as `Increment` and `Merge` perform it: the ripple-carry
loop, then the saturation loop when the final carry is set. -/
theorem satAdd_val (lsb : Nat) (f : Nat → Bool) (n : Nat) (bits : List Bool)
    (h : lsb + n ≤ bits.length) :
    (ripple lsb f n bits).2 = decide (2 ^ n ≤ cellVal bits lsb n + fnVal f n) ∧
    cellVal (if (ripple lsb f n bits).2 then setLoop lsb n (ripple lsb f n bits).1
        else (ripple lsb f n bits).1) lsb n
      = min (cellVal bits lsb n + fnVal f n) (2 ^ n - 1) := by
  have hv := ripple_val lsb f n bits h
  have h1 := cellVal_lt (ripple lsb f n bits).1 lsb n
  have h2 := cellVal_lt bits lsb n
  have h3 := fnVal_lt f n
  have hs := setLoop_val lsb n (ripple lsb f n bits).1 (by rw [ripple_length]; exact h)
  cases hc : (ripple lsb f n bits).2
  · simp only [hc, Bool.false_eq_true, if_false] at hv ⊢
    constructor
    · symm; rw [decide_eq_false_iff_not]; omega
    · omega
  · simp only [hc, if_true] at hv ⊢
    constructor
    · symm; rw [decide_eq_true_iff]; omega
    · omega

/-! ## `Count`, `Max`, `Size` and the bits of `value` -/

theorem cell_bound (len w cell : Nat) (h : cell < len / w) : cell * w + w ≤ len := by
  have h1 : (cell + 1) * w ≤ len / w * w := Nat.mul_le_mul_right w h
  have h2 : len / w * w ≤ len := Nat.div_mul_le_self len w
  have h3 : (cell + 1) * w = cell * w + w := by ring
  omega

theorem cells_disjoint (w c d i j : Nat) (hcd : c ≠ d) (hi : i < w) (hj : j < w) :
    c * w + i ≠ d * w + j := by
  intro h
  rcases Nat.lt_or_gt_of_ne hcd with hlt | hlt
  · have h1 : (c + 1) * w ≤ d * w := Nat.mul_le_mul_right w hlt
    have h2 : (c + 1) * w = c * w + w := by ring
    omega
  · have h1 : (d + 1) * w ≤ c * w := Nat.mul_le_mul_right w hlt
    have h2 : (d + 1) * w = d * w + w := by ring
    omega

theorem Size_eq (cv : CounterVector) (hw : 1 ≤ cv.width) :
    cv.Size = done (cv.bits.length / cv.width) := by
  simp only [CounterVector.Size]
  rw [if_neg (by omega)]

theorem countLoop_eq (bits : List Bool) (lsb n : Nat) (hn : n ≤ 64) :
    CounterVector.countLoop bits lsb n = (cellVal bits lsb n, 2 ^ n % 2 ^ 64) := by
  induction n with
  | zero => rfl
  | succ n ih =>
    have ih := ih (by omega)
    have hp : 2 ^ n < 2 ^ 64 := Nat.pow_lt_pow_right (by decide) (by omega)
    have hlt := cellVal_lt bits lsb n
    have hor : cellVal bits lsb n ||| 2 ^ n = cellVal bits lsb n + 2 ^ n := by
      have := Nat.mul_add_lt_is_or hlt 1
      rw [Nat.mul_one] at this
      rw [Nat.or_comm, ← this, Nat.add_comm]
    have hsh : 2 ^ n <<< 1 = 2 ^ (n + 1) := by rw [Nat.shiftLeft_eq, Nat.pow_succ 2 n, Nat.pow_one]
    rw [CounterVector.countLoop, ih, Nat.mod_eq_of_lt hp]
    simp only [hsh, hor, cellVal, sizeDigits]
    split <;> simp

theorem Count_eq (cv : CounterVector) (cell : Nat) (hw1 : 1 ≤ cv.width) (hw : cv.width ≤ 64)
    (hcell : cell < cv.bits.length / cv.width) :
    cv.Count cell = done (cellVal cv.bits (cell * cv.width) cv.width) := by
  have hlt := cellVal_lt cv.bits (cell * cv.width) cv.width
  have hp : 2 ^ cv.width ≤ 2 ^ 64 := Nat.pow_le_pow_right (by decide) hw
  simp only [CounterVector.Count, Size_eq cv hw1, done_bind, hcell, decide_True, check_true,
    countLoop_eq _ _ _ hw, pure_eq, countDigits]
  rw [Nat.mod_eq_of_lt (by omega)]

theorem Max_eq (cv : CounterVector) (hw1 : 1 ≤ cv.width) (hw : cv.width ≤ 64) :
    cv.Max = done (2 ^ cv.width - 1) := by
  rcases cv with ⟨bits, w⟩
  simp only [CounterVector.Max, sizeDigits] at *
  interval_cases w <;> rfl

theorem valueBit_low (value i : Nat) (hi : i < 31) :
    valueBit value i = done (value.testBit i) := by
  simp only [valueBit, oneShl, if_pos hi, done_bind, pure_eq, Nat.and_two_pow]
  have hp : 0 < 2 ^ i := Nat.two_pow_pos i
  cases value.testBit i <;> simp

theorem valueBit_31 (value : Nat) (hv : value < 2 ^ 32) :
    valueBit value 31 = done (value.testBit 31) := by
  have hshl : oneShl 31 = done (2 ^ 31 * (2 ^ 33 - 1)) := by decide
  simp only [valueBit, hshl, done_bind, pure_eq]
  congr 1
  by_cases h : value < 2 ^ 31
  · rw [Nat.testBit_lt_two_pow h]
    have hz : value &&& 2 ^ 31 * (2 ^ 33 - 1) = 0 := by
      apply Nat.eq_of_testBit_eq
      intro j
      rw [Nat.testBit_and, Nat.testBit_mul_pow_two, Nat.zero_testBit]
      by_cases hj : j < 31
      · simp [Nat.not_le.mpr hj]
      · have : value < 2 ^ j := Nat.lt_of_lt_of_le h (Nat.pow_le_pow_right (by decide) (by omega))
        rw [Nat.testBit_lt_two_pow this]
        simp
    rw [hz]
    simp
  · have ht : value.testBit 31 = true := by
      rw [Nat.testBit_to_div_mod]
      simp only [decide_eq_true_eq]
      norm_num at hv h ⊢
      omega
    rw [ht]
    simp only [ne_eq, decide_not, Bool.not_eq_true', decide_eq_false_iff_not]
    intro hz
    have := Nat.testBit_and value (2 ^ 31 * (2 ^ 33 - 1)) 31
    rw [hz, Nat.zero_testBit, ht, Nat.testBit_mul_pow_two] at this
    simp at this

theorem valueBit_eq (w value : Nat) (h : w ≤ 31 ∨ (w ≤ 32 ∧ value < 2 ^ w)) (i : Nat)
    (hi : i < w) : valueBit value i = done (value.testBit i) := by
  by_cases h31 : i < 31
  · exact valueBit_low value i h31
  · have hi31 : i = 31 := by omega
    have hw : w = 32 := by omega
    subst hi31
    apply valueBit_31
    rcases h with h | h
    · omega
    · rw [hw] at h; exact h.2

/-! ## `Increment` and `Decrement` as arithmetic on one cell -/

theorem valueBit_eff (value i : Nat) (hi : i ≤ 31) : valueBit value i = done (effBit value i) := by
  simp only [valueBit, oneShl, effBit, countDigits]
  by_cases h : i < 31
  · simp [h]
  · have : i = 31 := by omega
    subst this
    simp

theorem effBit_eq (w value : Nat) (h : w ≤ 31 ∨ (w ≤ 32 ∧ value < 2 ^ w)) (i : Nat)
    (hi : i < w) : effBit value i = value.testBit i := by
  have h1 := valueBit_eff value i (by omega)
  have h2 := valueBit_eq w value h i hi
  rw [h1] at h2
  exact Outcome.done.inj h2

theorem fnVal_effBit (w value : Nat) (h : w ≤ 31 ∨ (w ≤ 32 ∧ value < 2 ^ w)) :
    fnVal (effBit value) w = value % 2 ^ w := by
  rw [← fnVal_testBit]
  exact fnVal_congr _ _ _ (fun i hi => effBit_eq w value h i hi)

theorem satAddBits_length (lsb w : Nat) (f : Nat → Bool) (bits : List Bool) :
    (satAddBits lsb w f bits).length = bits.length := by
  unfold satAddBits
  split
  · rw [setLoop_length, ripple_length]
  · rw [ripple_length]

theorem satAddBits_getD_out (lsb w : Nat) (f : Nat → Bool) (bits : List Bool) (j : Nat)
    (hj : j < lsb ∨ lsb + w ≤ j) :
    (satAddBits lsb w f bits).getD j false = bits.getD j false := by
  unfold satAddBits
  split
  · rw [setLoop_getD, if_neg (by omega), ripple_getD_out _ _ _ _ _ hj]
  · rw [ripple_getD_out _ _ _ _ _ hj]

theorem satAddBits_val (lsb w : Nat) (f : Nat → Bool) (bits : List Bool)
    (h : lsb + w ≤ bits.length) :
    cellVal (satAddBits lsb w f bits) lsb w = min (cellVal bits lsb w + fnVal f w) (2 ^ w - 1) :=
  (satAdd_val lsb f w bits h).2

theorem satAddBits_val_other (w c d : Nat) (f : Nat → Bool) (bits : List Bool) (hcd : d ≠ c) :
    cellVal (satAddBits (c * w) w f bits) (d * w) w = cellVal bits (d * w) w := by
  apply cellVal_congr
  intro i hi
  apply satAddBits_getD_out
  by_contra hcon
  have hlo : c * w ≤ d * w + i := by omega
  have hhi : d * w + i < c * w + w := by omega
  exact cells_disjoint w d c i (d * w + i - c * w) hcd hi (by omega) (by omega)

theorem ripple_val_other (w c d : Nat) (f : Nat → Bool) (bits : List Bool) (hcd : d ≠ c) :
    cellVal (ripple (c * w) f w bits).1 (d * w) w = cellVal bits (d * w) w := by
  apply cellVal_congr
  intro i hi
  apply ripple_getD_out
  by_contra hcon
  exact cells_disjoint w d c i (d * w + i - c * w) hcd hi (by omega) (by omega)

theorem Increment_eq (cv : CounterVector) (cell value : Nat) (hw1 : 1 ≤ cv.width)
    (hw : cv.width ≤ 32) (hcell : cell < cv.bits.length / cv.width) (hv : value ≠ 0) :
    cv.Increment cell value
      = done (⟨satAddBits (cell * cv.width) cv.width (effBit value) cv.bits, cv.width⟩,
          !(ripple (cell * cv.width) (effBit value) cv.width cv.bits).2) := by
  have hr := rippleLoop_eq (cell * cv.width) (valueBit value) (effBit value) cv.width cv.bits
    (fun i hi => valueBit_eff value i (by omega))
  simp only [CounterVector.Increment, Size_eq cv hw1, done_bind, hcell, decide_True, check_true,
    hv, ne_eq, not_false_eq_true, hr, pure_eq, satAddBits]

theorem Decrement_eq (cv : CounterVector) (cell value : Nat) (hw1 : 1 ≤ cv.width)
    (hw : cv.width ≤ 32) (hcell : cell < cv.bits.length / cv.width) (hv : value ≠ 0) :
    cv.Decrement cell value
      = done (⟨(ripple (cell * cv.width) (effBit ((2 ^ 64 - 1 - value + 1) % 2 ^ 64)) cv.width
            cv.bits).1, cv.width⟩,
          (ripple (cell * cv.width) (effBit ((2 ^ 64 - 1 - value + 1) % 2 ^ 64)) cv.width
            cv.bits).2) := by
  have hr := rippleLoop_eq (cell * cv.width) (valueBit ((2 ^ 64 - 1 - value + 1) % 2 ^ 64))
    (effBit ((2 ^ 64 - 1 - value + 1) % 2 ^ 64)) cv.width cv.bits
    (fun i hi => valueBit_eff _ i (by omega))
  simp only [CounterVector.Decrement, Size_eq cv hw1, done_bind, hcell, decide_True, check_true,
    hv, ne_eq, not_false_eq_true, hr, pure_eq, countDigits]

theorem size_cell (cv : CounterVector) (n cell : Nat) (hw1 : 1 ≤ cv.width)
    (hsize : cv.Size = done n) (hcell : cell < n) : cell < cv.bits.length / cv.width := by
  rw [Size_eq cv hw1] at hsize
  rw [Outcome.done.inj hsize]
  exact hcell

theorem cellVal_eq_sum (bits : List Bool) (lsb n : Nat) :
    cellVal bits lsb n
      = ∑ i in Finset.range n, (if bits.getD (lsb + i) false then 1 else 0) * 2 ^ i := by
  induction n with
  | zero => rfl
  | succ n ih =>
    rw [Finset.sum_range_succ, ← ih, cellVal]
    split <;> simp

theorem Count_mk (bits : List Bool) (w cell : Nat) (hw1 : 1 ≤ w) (hw : w ≤ 64)
    (hcell : cell < bits.length / w) :
    (CounterVector.mk bits w).Count cell = done (cellVal bits (cell * w) w) :=
  Count_eq ⟨bits, w⟩ cell hw1 hw hcell

theorem Max_mk (bits : List Bool) (w : Nat) (hw1 : 1 ≤ w) (hw : w ≤ 64) :
    (CounterVector.mk bits w).Max = done (2 ^ w - 1) :=
  Max_eq ⟨bits, w⟩ hw1 hw

/-! ## Sequences of `Increment` calls -/

theorem satAddBits_mono (w c d : Nat) (f : Nat → Bool) (bits : List Bool)
    (hc : c * w + w ≤ bits.length) :
    cellVal bits (d * w) w ≤ cellVal (satAddBits (c * w) w f bits) (d * w) w := by
  by_cases hcd : d = c
  · subst hcd
    rw [satAddBits_val _ _ _ _ hc]
    have := cellVal_lt bits (d * w) w
    omega
  · rw [satAddBits_val_other w c d f bits hcd]

theorem fnVal_effBit_one (w : Nat) (hw1 : 1 ≤ w) (hw : w ≤ 32) : fnVal (effBit 1) w = 1 := by
  have h1 : 1 < 2 ^ w := Nat.one_lt_two_pow (by omega)
  rw [fnVal_effBit w 1 (Or.inr ⟨hw, h1⟩), Nat.mod_eq_of_lt h1]

theorem incrementAll_spec (ops : List (Nat × Nat)) (bits : List Bool) (w : Nat) (hw1 : 1 ≤ w)
    (hw : w ≤ 32) (hops : ∀ op ∈ ops, op.1 < bits.length / w ∧ op.2 ≠ 0) :
    ∃ bits', incrementAll ⟨bits, w⟩ ops = done ⟨bits', w⟩ ∧ bits'.length = bits.length ∧
      ∀ d, cellVal bits (d * w) w ≤ cellVal bits' (d * w) w := by
  induction ops generalizing bits with
  | nil => exact ⟨bits, rfl, rfl, fun d => Nat.le_refl _⟩
  | cons op rest ih =>
    have hop := hops op (List.mem_cons_self _ _)
    have hlen := satAddBits_length (op.1 * w) w (effBit op.2) bits
    obtain ⟨bits', h1, h2, h3⟩ := ih (satAddBits (op.1 * w) w (effBit op.2) bits)
      (fun o ho => by rw [hlen]; exact hops o (List.mem_cons_of_mem _ ho))
    refine ⟨bits', ?_, by rw [h2, hlen], fun d => ?_⟩
    · simp only [incrementAll]
      rw [Increment_eq ⟨bits, w⟩ op.1 op.2 hw1 hw hop.1 hop.2]
      exact h1
    · exact Nat.le_trans (satAddBits_mono w op.1 d (effBit op.2) bits (cell_bound _ _ _ hop.1))
        (h3 d)

theorem cellVal_replicate (k lsb n : Nat) : cellVal (List.replicate k false) lsb n = 0 := by
  induction n with
  | zero => rfl
  | succ n ih =>
    simp only [cellVal, ih]
    have : (List.replicate k false).getD (lsb + n) false = false := by
      simp only [List.getD_eq_getElem?_getD, List.getElem?_replicate]
      split <;> rfl
    simp [this]

theorem incrementTimes_spec (bits : List Bool) (w cell n : Nat) (hw1 : 1 ≤ w) (hw : w ≤ 32)
    (hcell : cell < bits.length / w) :
    ∃ bits' r, incrementTimes ⟨bits, w⟩ cell n = done (⟨bits', w⟩, r) ∧
      bits'.length = bits.length ∧
      cellVal bits' (cell * w) w = min (cellVal bits (cell * w) w + n) (2 ^ w - 1) ∧
      (1 ≤ n → (r = true ↔ cellVal bits (cell * w) w + n ≤ 2 ^ w - 1)) := by
  induction n with
  | zero =>
    refine ⟨bits, true, rfl, rfl, ?_, fun h => absurd h (by decide)⟩
    have := cellVal_lt bits (cell * w) w
    omega
  | succ n ih =>
    obtain ⟨bits', r, h1, h2, h3, _⟩ := ih
    have hc' : cell < bits'.length / w := by rw [h2]; exact hcell
    have hb := cell_bound _ _ _ hc'
    have hsat := satAdd_val (cell * w) (effBit 1) w bits' hb
    rw [fnVal_effBit_one w hw1 hw] at hsat
    refine ⟨satAddBits (cell * w) w (effBit 1) bits', !(ripple (cell * w) (effBit 1) w bits').2,
      ?_, by rw [satAddBits_length, h2], ?_, fun _ => ?_⟩
    · simp only [incrementTimes]
      rw [h1]
      exact Increment_eq ⟨bits', w⟩ cell 1 hw1 hw hc' (by decide)
    · rw [satAddBits_val _ _ _ _ hb, fnVal_effBit_one w hw1 hw, h3]
      omega
    · rw [hsat.1, h3]
      simp only [Bool.not_eq_true', decide_eq_false_iff_not]
      omega

/-! ## `Decrement`: the two's complement of `value` -/

theorem negate_eq (value : Nat) (hv : value ≠ 0) (hvt : value < 2 ^ 64) :
    (2 ^ 64 - 1 - value + 1) % 2 ^ 64 = 2 ^ 64 - value := by
  omega

theorem two_pow_split (w : Nat) (hw : w ≤ 64) : (2 : Nat) ^ 64 = 2 ^ w * 2 ^ (64 - w) := by
  rw [← Nat.pow_add]
  congr 1
  omega

theorem negate_mod_small (w value : Nat) (hw : w ≤ 64) (hv : value ≠ 0) (hvw : value < 2 ^ w) :
    (2 ^ 64 - value) % 2 ^ w = 2 ^ w - value := by
  have hsplit := two_pow_split w hw
  have hq : 0 < 2 ^ (64 - w) := Nat.two_pow_pos _
  obtain ⟨q, hq'⟩ : ∃ q, 2 ^ (64 - w) = q + 1 := ⟨2 ^ (64 - w) - 1, by omega⟩
  rw [hq', Nat.mul_add, Nat.mul_one] at hsplit
  have : 2 ^ 64 - value = (2 ^ w - value) + 2 ^ w * q := by omega
  rw [this, Nat.add_mul_mod_self_left, Nat.mod_eq_of_lt (by omega)]

theorem negate_mod_int (w value : Nat) (hw : w ≤ 64) (hvt : value < 2 ^ 64) :
    (((2 ^ 64 - value) % 2 ^ w : Nat) : Int) % (2 ^ w : Int) = (-(value : Int)) % (2 ^ w : Int) := by
  have hsplit := two_pow_split w hw
  have h1 : (((2 ^ 64 - value) % 2 ^ w : Nat) : Int) = ((2 ^ 64 - value : Nat) : Int) % (2 ^ w : Int) := by
    push_cast
    rfl
  rw [h1, Int.emod_emod_of_dvd _ (dvd_refl _)]
  have h2 : ((2 ^ 64 - value : Nat) : Int) = -(value : Int) + (2 ^ w : Int) * (2 ^ (64 - w) : Int) := by
    have : ((2 ^ 64 - value : Nat) : Int) = (2 ^ 64 : Int) - value := by
      rw [Nat.cast_sub (Nat.le_of_lt hvt)]
      push_cast
      rfl
    rw [this]
    have h3 : ((2 : Int) ^ 64) = (2 ^ w : Int) * (2 ^ (64 - w) : Int) := by
      exact_mod_cast hsplit
    rw [h3]
    ring
  rw [h2, Int.add_mul_emod_self_left]

/-! ## `Merge` as cellwise saturating addition -/

theorem mergeLoop_eq (w : Nat) (other : List Bool) (n : Nat) (bits : List Bool) :
    CounterVector.mergeLoop w other n bits = done (mergeBits w other n bits) := by
  induction n with
  | zero => rfl
  | succ n ih =>
    simp only [CounterVector.mergeLoop]
    rw [ih]
    have hr := rippleLoop_eq (n * w) (otherBit other (n * w))
      (fun i => other.getD (n * w + i) false) w (mergeBits w other n bits) (fun i _ => rfl)
    simp only [done_bind, hr, pure_eq, mergeBits, satAddBits]

theorem mergeBits_length (w : Nat) (other : List Bool) (n : Nat) (bits : List Bool) :
    (mergeBits w other n bits).length = bits.length := by
  induction n with
  | zero => rfl
  | succ n ih => rw [mergeBits, satAddBits_length, ih]

theorem mergeBits_getD_high (w : Nat) (other : List Bool) (n : Nat) (bits : List Bool) (j : Nat)
    (hj : n * w ≤ j) : (mergeBits w other n bits).getD j false = bits.getD j false := by
  induction n with
  | zero => rfl
  | succ n ih =>
    have h1 : (n + 1) * w = n * w + w := by ring
    rw [mergeBits, satAddBits_getD_out _ _ _ _ _ (Or.inr (by omega)), ih (by omega)]

theorem mergeBits_val (w : Nat) (other : List Bool) (n : Nat) (bits : List Bool) (c : Nat)
    (hc : c < n) (hlen : n * w ≤ bits.length) :
    cellVal (mergeBits w other n bits) (c * w) w
      = min (cellVal bits (c * w) w + cellVal other (c * w) w) (2 ^ w - 1) := by
  induction n with
  | zero => omega
  | succ n ih =>
    have h1 : (n + 1) * w = n * w + w := by ring
    rw [mergeBits]
    by_cases hcn : c = n
    · subst hcn
      rw [satAddBits_val _ _ _ _ (by rw [mergeBits_length]; omega), ← cellVal_getD]
      congr 2
      apply cellVal_congr
      intro i _
      exact mergeBits_getD_high w other c bits _ (by omega)
    · rw [satAddBits_val_other w n c _ _ hcn]
      exact ih (by omega) (by omega)

theorem Merge_eq (a b : CounterVector) (hw1 : 1 ≤ a.width) (hwidth : a.width = b.width)
    (hsize : a.bits.length / a.width = b.bits.length / b.width) :
    a.Merge b
      = done ⟨mergeBits a.width b.bits (a.bits.length / a.width) a.bits, a.width⟩ := by
  have hsize' : a.bits.length / b.width = b.bits.length / b.width := by
    rw [hwidth] at hsize; exact hsize
  simp only [CounterVector.Merge, Size_eq a hw1, Size_eq b (by omega), done_bind, hsize',
    decide_True, check_true, CounterVector.Width, hwidth, mergeLoop_eq, pure_eq]

theorem fnVal_testBit_eq (f : Nat → Bool) (n i : Nat) (hi : i < n) :
    (fnVal f n).testBit i = f i := by
  induction n with
  | zero => omega
  | succ n ih =>
    simp only [fnVal]
    by_cases hin : i = n
    · subst hin
      have hlt := fnVal_lt f i
      cases hf : f i
      · simp only [Bool.false_eq_true, if_false, Nat.add_zero]
        exact Nat.testBit_lt_two_pow hlt
      · simp only [if_true]
        rw [Nat.add_comm, Nat.testBit_two_pow_add_eq, Nat.testBit_lt_two_pow hlt]
        rfl
    · have hlt : i < n := by omega
      cases hf : f n
      · simp only [Bool.false_eq_true, if_false, Nat.add_zero]
        exact ih hlt
      · simp only [if_true]
        rw [Nat.add_comm, Nat.testBit_two_pow_add_gt hlt]
        exact ih hlt

theorem bits_ext_cells (l1 l2 : List Bool) (w n : Nat) (h1 : l1.length = w * n)
    (h2 : l2.length = w * n)
    (h : ∀ c, c < n → cellVal l1 (c * w) w = cellVal l2 (c * w) w) : l1 = l2 := by
  apply List.ext_getElem (by rw [h1, h2])
  intro j hj1 hj2
  have hw : 0 < w := by
    rcases Nat.eq_zero_or_pos w with h0 | h0
    · rw [h0, Nat.zero_mul] at h1; omega
    · exact h0
  have hcn : j / w < n := by
    rw [Nat.div_lt_iff_lt_mul hw, Nat.mul_comm]; omega
  have hi : j % w < w := Nat.mod_lt _ hw
  have hj : j / w * w + j % w = j := by
    rw [Nat.mul_comm]; exact Nat.div_add_mod j w
  have hcell := h (j / w) hcn
  rw [cellVal_getD, cellVal_getD] at hcell
  have hbit := congrArg (fun v => v.testBit (j % w)) hcell
  simp only [fnVal_testBit_eq _ _ _ hi, hj] at hbit
  have e1 : l1.getD j false = l1[j] := by
    simp [List.getD_eq_getElem?_getD, List.getElem?_eq_getElem hj1]
  have e2 : l2.getD j false = l2[j] := by
    simp [List.getD_eq_getElem?_getD, List.getElem?_eq_getElem hj2]
  rw [← e1, ← e2]
  exact hbit

theorem Size_mk (bits : List Bool) (w : Nat) (hw1 : 1 ≤ w) :
    (CounterVector.mk bits w).Size = done (bits.length / w) :=
  Size_eq ⟨bits, w⟩ hw1

theorem minCount_spec (bits : List Bool) (w : Nat) (hw1 : 1 ≤ w) (hw : w ≤ 64) (i : Nat)
    (rest : List Nat) (hI : ∀ j ∈ i :: rest, j < bits.length / w) :
    ∃ e, minCount ⟨bits, w⟩ i rest = done e ∧
      (∀ j ∈ i :: rest, e ≤ cellVal bits (j * w) w) ∧
      (∃ j ∈ i :: rest, e = cellVal bits (j * w) w) := by
  induction rest generalizing i with
  | nil =>
    refine ⟨cellVal bits (i * w) w, ?_, ?_, ⟨i, List.mem_cons_self _ _, rfl⟩⟩
    · exact Count_mk bits w i hw1 hw (hI i (List.mem_cons_self _ _))
    · intro j hj
      rw [List.mem_singleton.mp hj]
  | cons k rest ih =>
    obtain ⟨e, h1, h2, j0, hj0, h3⟩ := ih k (fun j hj => hI j (List.mem_cons_of_mem _ hj))
    refine ⟨min (cellVal bits (i * w) w) e, ?_, ?_, ?_⟩
    · simp only [minCount]
      rw [Count_mk bits w i hw1 hw (hI i (List.mem_cons_self _ _)), h1]
      rfl
    · intro j hj
      rcases List.mem_cons.mp hj with rfl | hj
      · exact Nat.min_le_left _ _
      · exact Nat.le_trans (Nat.min_le_right _ _) (h2 j hj)
    · rcases Nat.le_total (cellVal bits (i * w) w) e with hle | hle
      · exact ⟨i, List.mem_cons_self _ _, Nat.min_eq_left hle⟩
      · exact ⟨j0, List.mem_cons_of_mem _ hj0, by rw [Nat.min_eq_right hle, h3]⟩

/-! ## Fresh vectors, failed assertions and the frame of the loops -/

theorem countLoop_congr (l1 l2 : List Bool) (lsb n : Nat)
    (h : ∀ i, i < n → l1.getD (lsb + i) false = l2.getD (lsb + i) false) :
    CounterVector.countLoop l1 lsb n = CounterVector.countLoop l2 lsb n := by
  induction n with
  | zero => rfl
  | succ n ih =>
    rw [CounterVector.countLoop, CounterVector.countLoop, ih (fun i hi => h i (by omega)),
      h n (by omega)]

theorem countLoop_replicate (k lsb n : Nat) :
    (CounterVector.countLoop (List.replicate k false) lsb n).1 = 0 := by
  induction n with
  | zero => rfl
  | succ n ih =>
    have hget : (List.replicate k false).getD (lsb + n) false = false := by
      simp only [List.getD_eq_getElem?_getD, List.getElem?_replicate]
      split <;> rfl
    rw [CounterVector.countLoop]
    simp only [hget, Bool.false_eq_true, if_false]
    exact ih

theorem valueBit_ne_assertFailed (value i : Nat) : valueBit value i ≠ assertFailed := by
  simp only [valueBit, oneShl]
  split
  · simp
  · split <;> simp

theorem rippleLoop_ne_assertFailed (lsb : Nat) (b2 : Nat → Outcome Bool)
    (h : ∀ i, b2 i ≠ assertFailed) (n : Nat) (bits : List Bool) :
    rippleLoop lsb b2 n bits ≠ assertFailed := by
  induction n with
  | zero => simp [rippleLoop]
  | succ n ih =>
    simp only [rippleLoop]
    cases hr : rippleLoop lsb b2 n bits with
    | done a =>
      cases hb : b2 n with
      | done b => simp
      | assertFailed => exact absurd hb (h n)
      | undefinedBehaviour => simp
    | assertFailed => exact absurd hr ih
    | undefinedBehaviour => simp

theorem bits_eq_of_cell (l1 l2 : List Bool) (lsb w : Nat) (hlen : l1.length = l2.length)
    (hout : ∀ j, (j < lsb ∨ lsb + w ≤ j) → l1.getD j false = l2.getD j false)
    (hval : cellVal l1 lsb w = cellVal l2 lsb w) : l1 = l2 := by
  apply List.ext_getElem hlen
  intro j hj1 hj2
  have e1 : l1.getD j false = l1[j] := by
    simp [List.getD_eq_getElem?_getD, List.getElem?_eq_getElem hj1]
  have e2 : l2.getD j false = l2[j] := by
    simp [List.getD_eq_getElem?_getD, List.getElem?_eq_getElem hj2]
  rw [← e1, ← e2]
  by_cases hin : lsb ≤ j ∧ j < lsb + w
  · rw [cellVal_getD, cellVal_getD] at hval
    have hbit := congrArg (fun v => v.testBit (j - lsb)) hval
    simp only [fnVal_testBit_eq _ _ _ (show j - lsb < w by omega)] at hbit
    have hj : lsb + (j - lsb) = j := by omega
    rw [hj] at hbit
    exact hbit
  · exact hout j (by omega)

/-! ## Round trips and grouping -/

theorem ripple_congr (lsb : Nat) (f g : Nat → Bool) (n : Nat) (bits : List Bool)
    (h : ∀ i, i < n → f i = g i) : ripple lsb f n bits = ripple lsb g n bits := by
  induction n with
  | zero => rfl
  | succ n ih =>
    simp only [ripple]
    rw [ih (fun i hi => h i (by omega)), h n (by omega)]

theorem effBit_mod (w value : Nat) (hw : w ≤ 31) (i : Nat) (hi : i < w) :
    effBit value i = effBit (value % 2 ^ w) i := by
  rw [effBit_eq w value (Or.inl hw) i hi, effBit_eq w (value % 2 ^ w) (Or.inl hw) i hi,
    Nat.testBit_mod_two_pow]
  simp [hi]

theorem ripple_negate_val (bits : List Bool) (lsb w value : Nat) (hw : w ≤ 31)
    (hvt : value < 2 ^ 64) (hb : lsb + w ≤ bits.length) :
    ((cellVal (ripple lsb (effBit (2 ^ 64 - value)) w bits).1 lsb w : Nat) : Int)
      = (((cellVal bits lsb w : Nat) : Int) - (value : Int)) % (2 ^ w : Int) := by
  have hf : fnVal (effBit (2 ^ 64 - value)) w = (2 ^ 64 - value) % 2 ^ w :=
    fnVal_effBit w _ (Or.inl hw)
  have hval := ripple_val lsb (effBit (2 ^ 64 - value)) w bits hb
  rw [hf] at hval
  have hlt := cellVal_lt (ripple lsb (effBit (2 ^ 64 - value)) w bits).1 lsb w
  have hmod := negate_mod_int w value (by omega) hvt
  generalize cellVal (ripple lsb (effBit (2 ^ 64 - value)) w bits).1 lsb w = c' at hval hlt ⊢
  generalize cellVal bits lsb w = c at hval ⊢
  generalize (2 ^ 64 - value) % 2 ^ w = a at hval hmod
  have hk : ∃ k : Int, (c' : Int) + (2 ^ w : Int) * k = (c : Int) + (a : Int) := by
    split at hval
    · exact ⟨1, by rw [mul_one]; exact_mod_cast hval⟩
    · exact ⟨0, by rw [mul_zero]; exact_mod_cast hval⟩
  obtain ⟨k, hk⟩ := hk
  have hc'nn : (0 : Int) ≤ (c' : Int) := Int.ofNat_nonneg _
  have hc'lt : (c' : Int) < (2 ^ w : Int) := by exact_mod_cast hlt
  calc (c' : Int) = (c' : Int) % (2 ^ w : Int) := (Int.emod_eq_of_lt hc'nn hc'lt).symm
    _ = ((c' : Int) + (2 ^ w : Int) * k) % (2 ^ w : Int) := by
        rw [Int.add_mul_emod_self_left]
    _ = ((c : Int) + (a : Int)) % (2 ^ w : Int) := by rw [hk]
    _ = ((c : Int) % (2 ^ w : Int) + (a : Int) % (2 ^ w : Int)) % (2 ^ w : Int) :=
        Int.add_emod _ _ _
    _ = ((c : Int) % (2 ^ w : Int) + (-(value : Int)) % (2 ^ w : Int)) % (2 ^ w : Int) := by
        rw [hmod]
    _ = ((c : Int) + -(value : Int)) % (2 ^ w : Int) := (Int.add_emod _ _ _).symm
    _ = ((c : Int) - (value : Int)) % (2 ^ w : Int) := by rw [Int.sub_eq_add_neg]

theorem add_mod_sub_emod (c value w : Nat) (hc : c < 2 ^ w) :
    (((c + value % 2 ^ w : Nat) : Int) - (value : Int)) % (2 ^ w : Int) = (c : Int) := by
  have hdm : (value : Int) = (2 ^ w : Int) * ((value / 2 ^ w : Nat) : Int)
      + ((value % 2 ^ w : Nat) : Int) := by
    exact_mod_cast (Nat.div_add_mod value (2 ^ w)).symm
  have h1 : ((c + value % 2 ^ w : Nat) : Int) - (value : Int)
      = (c : Int) + (2 ^ w : Int) * (-((value / 2 ^ w : Nat) : Int)) := by
    rw [Nat.cast_add]
    generalize ((value % 2 ^ w : Nat) : Int) = a at hdm ⊢
    generalize ((value / 2 ^ w : Nat) : Int) = q at hdm ⊢
    rw [hdm]
    ring
  rw [h1, Int.add_mul_emod_self_left]
  exact Int.emod_eq_of_lt (Int.ofNat_nonneg _) (by exact_mod_cast hc)

theorem Decrement_mk (bits : List Bool) (w cell value : Nat) (hw1 : 1 ≤ w) (hw : w ≤ 32)
    (hcell : cell < bits.length / w) (hv : value ≠ 0) :
    (CounterVector.mk bits w).Decrement cell value
      = done (⟨(ripple (cell * w) (effBit ((2 ^ 64 - 1 - value + 1) % 2 ^ 64)) w bits).1, w⟩,
          (ripple (cell * w) (effBit ((2 ^ 64 - 1 - value + 1) % 2 ^ 64)) w bits).2) :=
  Decrement_eq ⟨bits, w⟩ cell value hw1 hw hcell hv

theorem or_mk (bx bz : List Bool) (w n : Nat) (hw1 : 1 ≤ w) (hx : bx.length = w * n)
    (hz : bz.length = w * n) :
    (CounterVector.mk bx w).or (CounterVector.mk bz w) = done ⟨mergeBits w bz n bx, w⟩ := by
  have hnx : bx.length / w = n := by rw [hx]; exact Nat.mul_div_cancel_left n hw1
  have hnz : bz.length / w = n := by rw [hz]; exact Nat.mul_div_cancel_left n hw1
  have := Merge_eq ⟨bx, w⟩ ⟨bz, w⟩ hw1 rfl (by rw [hnx, hnz])
  simp only [hnx] at this
  exact this

/-! ## The claims -/

/-- C10 (as amended): for a counter vector with `1 ≤ width ≤ 64` and an in-range cell,
`Count(cell)` returns the sum over `i < width` of `bit(cell*width + i) * 2^i`. `Count` only
reads the vector: it returns a number and no vector. -/
theorem Count_binary_value (cv : CounterVector) (n cell : Nat) (hw1 : 1 ≤ cv.width)
    (hw : cv.width ≤ 64) (hsize : cv.Size = done n) (hcell : cell < n) :
    cv.Count cell = done (∑ i in Finset.range cv.width,
      (if cv.bits.getD (cell * cv.width + i) false then 1 else 0) * 2 ^ i) := by
  rw [Count_eq cv cell hw1 hw (size_cell cv n cell hw1 hsize hcell), cellVal_eq_sum]

/-- C10, witness: the cell `[1, 0, 1]` (least significant bit first) of a width-3 vector
counts 5. -/
theorem Count_binary_value_witness :
    (CounterVector.mk [false, false, false, true, false, true] 3).Count 1 = done 5 :=
  Count_binary_value ⟨[false, false, false, true, false, true], 3⟩ 2 1 (by decide) (by decide)
    (by decide) (by decide)

/-- C10, counterexample: with width 65 the loop shifts `order` out of the 64-bit `size_t`, so
a cell whose only set bit is bit 64 counts 0, whereas its bits write the number `2^64`. -/
theorem Count_wide_cell_truncates :
    (CounterVector.mk (List.replicate 64 false ++ [true]) 65).Size = done 1 ∧
    (CounterVector.mk (List.replicate 64 false ++ [true]) 65).Count 0 = done 0 ∧
    (∑ i in Finset.range 65,
      (if (List.replicate 64 false ++ [true]).getD (0 * 65 + i) false then 1 else 0) * 2 ^ i)
      = 2 ^ 64 := by
  refine ⟨by decide, by decide, ?_⟩
  rw [← cellVal_eq_sum]
  decide

/-- C1 (as amended): for a counter vector with `1 ≤ width ≤ 32`, an in-range cell and a value
with `1 ≤ value ≤ Max()`, `Increment(cell, value)` returns, `Count(cell)` afterwards is
`min(Count(cell) before + value, Max())`, and the call returns `true` exactly when
`Count(cell) before + value ≤ Max()`, `false` exactly when the counter was clamped. -/
theorem Increment_saturating_add (cv : CounterVector) (n cell value m : Nat)
    (hw1 : 1 ≤ cv.width) (hw : cv.width ≤ 32) (hsize : cv.Size = done n) (hcell : cell < n)
    (hv : value ≠ 0) (hmax : cv.Max = done m) (hvm : value ≤ m) :
    ∃ c cv', cv.Count cell = done c ∧
      cv.Increment cell value = done (cv', decide (c + value ≤ m)) ∧
      cv'.Count cell = done (min (c + value) m) ∧ cv'.Max = done m := by
  have hc := size_cell cv n cell hw1 hsize hcell
  have hm : m = 2 ^ cv.width - 1 := by
    rw [Max_eq cv hw1 (by omega)] at hmax
    exact (Outcome.done.inj hmax).symm
  have hp : 0 < 2 ^ cv.width := Nat.two_pow_pos _
  have hvw : value < 2 ^ cv.width := by omega
  have hb := cell_bound _ _ _ hc
  have hf : fnVal (effBit value) cv.width = value := by
    rw [fnVal_effBit cv.width value (Or.inr ⟨hw, hvw⟩), Nat.mod_eq_of_lt hvw]
  have hsat := satAdd_val (cell * cv.width) (effBit value) cv.width cv.bits hb
  rw [hf] at hsat
  refine ⟨cellVal cv.bits (cell * cv.width) cv.width,
    ⟨satAddBits (cell * cv.width) cv.width (effBit value) cv.bits, cv.width⟩,
    Count_eq cv cell hw1 (by omega) hc, ?_, ?_, ?_⟩
  · rw [Increment_eq cv cell value hw1 hw hc hv, hsat.1]
    congr 2
    rw [← decide_not]
    apply decide_eq_decide.mpr
    omega
  · rw [Count_mk _ _ _ hw1 (by omega) (by rw [satAddBits_length]; exact hc),
      satAddBits_val _ _ _ _ hb, hf, hm]
  · rw [hm]
    exact Max_mk _ _ hw1 (by omega)

/-- C1, witness: width 2, count 2, adding 3 clamps the counter to 3 and returns `false`. -/
theorem Increment_saturating_add_witness :
    ∃ c cv', (CounterVector.mk [false, true] 2).Count 0 = done c ∧
      (CounterVector.mk [false, true] 2).Increment 0 3 = done (cv', decide (c + 3 ≤ 3)) ∧
      cv'.Count 0 = done (min (c + 3) 3) ∧ cv'.Max = done 3 :=
  Increment_saturating_add ⟨[false, true], 2⟩ 1 0 3 3 (by decide) (by decide) (by decide)
    (by decide) (by decide) (by decide) (by decide)

/-- C1, counterexample: only the low `width` bits of `value` are added. With width 2, count 0
and value 4 the counter stays 0 and the call returns `true`, whereas `min(0 + 4, Max()) = 3`
and `0 + 4 > Max()`. And with width 33 the loop evaluates the `int` shift `1 << 32`, whose
behaviour is undefined. -/
theorem Increment_ignores_high_bits :
    (CounterVector.mk [false, false] 2).Count 0 = done 0 ∧
    (CounterVector.mk [false, false] 2).Max = done 3 ∧
    (CounterVector.mk [false, false] 2).Increment 0 4
      = done (CounterVector.mk [false, false] 2, true) ∧
    min (0 + 4) 3 ≠ 0 ∧ ¬ (0 + 4 ≤ 3) ∧
    (CounterVector.new 33 1).Increment 0 1 = undefinedBehaviour := by
  decide

/-- C2 (as amended): for a counter vector with `1 ≤ width ≤ 32` and an in-range cell,
`Count(cell) ≤ Max()` holds after every sequence of `Increment` calls (in-range cells,
nonzero values), and once `Count(cell) == Max()`, every further `Increment(cell, value)`
with `1 ≤ value ≤ Max()` leaves `Count(cell) == Max()` and returns `false`. -/
theorem Increment_saturation_bound (cv : CounterVector) (n cell : Nat) (ops : List (Nat × Nat))
    (hw1 : 1 ≤ cv.width) (hw : cv.width ≤ 32) (hsize : cv.Size = done n)
    (hops : ∀ op ∈ ops, op.1 < n ∧ op.2 ≠ 0) (hcell : cell < n) :
    ∃ cv' c m, incrementAll cv ops = done cv' ∧ cv'.Count cell = done c ∧ cv'.Max = done m ∧
      c ≤ m ∧
      (c = m → ∀ value, value ≠ 0 → value ≤ m →
        ∃ cv'', cv'.Increment cell value = done (cv'', false) ∧ cv''.Count cell = done m) := by
  have hn : n = cv.bits.length / cv.width := by
    rw [Size_eq cv hw1] at hsize
    exact (Outcome.done.inj hsize).symm
  rcases cv with ⟨bits, w⟩
  simp only at hw1 hw hn
  subst hn
  obtain ⟨bits', h1, h2, _⟩ := incrementAll_spec ops bits w hw1 hw hops
  have hc' : cell < bits'.length / w := by rw [h2]; exact hcell
  have hb := cell_bound _ _ _ hc'
  have hlt := cellVal_lt bits' (cell * w) w
  refine ⟨⟨bits', w⟩, cellVal bits' (cell * w) w, 2 ^ w - 1, h1,
    Count_mk bits' w cell hw1 (by omega) hc', Max_mk bits' w hw1 (by omega), by omega, ?_⟩
  intro hfull value hv hvm
  have hvw : value < 2 ^ w := by omega
  have hf : fnVal (effBit value) w = value := by
    rw [fnVal_effBit w value (Or.inr ⟨hw, hvw⟩), Nat.mod_eq_of_lt hvw]
  have hsat := satAdd_val (cell * w) (effBit value) w bits' hb
  rw [hf] at hsat
  refine ⟨⟨satAddBits (cell * w) w (effBit value) bits', w⟩, ?_, ?_⟩
  · rw [Increment_eq ⟨bits', w⟩ cell value hw1 hw hc' hv, hsat.1]
    simp only
    congr 2
    simp only [Bool.not_eq_false', decide_eq_true_eq]
    omega
  · rw [Count_mk _ _ _ hw1 (by omega) (by rw [satAddBits_length]; exact hc'),
      satAddBits_val _ _ _ _ hb, hf]
    congr 1
    omega

/-- C2, witness: width 2, two cells; after `Increment(0, 2)` and `Increment(0, 3)` cell 0 is
at `Max() = 3`, and further increments keep it there and return `false`. -/
theorem Increment_saturation_bound_witness :
    ∃ cv' c m, incrementAll (CounterVector.new 2 2) [(0, 2), (0, 3)] = done cv' ∧
      cv'.Count 0 = done c ∧ cv'.Max = done m ∧ c ≤ m ∧
      (c = m → ∀ value, value ≠ 0 → value ≤ m →
        ∃ cv'', cv'.Increment 0 value = done (cv'', false) ∧ cv''.Count 0 = done m) :=
  Increment_saturation_bound (CounterVector.new 2 2) 2 0 [(0, 2), (0, 3)] (by decide)
    (by decide) (by decide) (by decide) (by decide)

/-- C2, counterexample: with width 2 and the counter at `Max() = 3`, `Increment(0, 4)` adds
the low two bits of 4, which are zero: the call returns `true`, not `false`. And with
width 40 the loop evaluates `1 << 32` and later shifts, whose behaviour is undefined. -/
theorem Increment_at_max_returns_true :
    (CounterVector.mk [true, true] 2).Count 0 = done 3 ∧
    (CounterVector.mk [true, true] 2).Max = done 3 ∧
    (CounterVector.mk [true, true] 2).Increment 0 4
      = done (CounterVector.mk [true, true] 2, true) ∧
    (CounterVector.new 40 2).Increment 1 1 = undefinedBehaviour := by
  decide

/-- Supporting result for C7, where the `int` shifts of the loop are defined: for a counter
vector with `1 ≤ width ≤ 32` and an in-range cell `c`,
after `Increment(c, 1)` followed by any finite sequence of `Increment(d, 1)` calls on
in-range cells `d`, all calls return and `Count(c)` is not 0. -/
theorem Increment_count_never_zero (cv : CounterVector) (n c : Nat) (ds : List Nat)
    (hw1 : 1 ≤ cv.width) (hw : cv.width ≤ 32) (hsize : cv.Size = done n) (hc : c < n)
    (hds : ∀ d ∈ ds, d < n) :
    ∃ cv' k, incrementAll cv ((c, 1) :: ds.map (fun d => (d, 1))) = done cv' ∧
      cv'.Count c = done k ∧ k ≠ 0 := by
  have hn : n = cv.bits.length / cv.width := by
    rw [Size_eq cv hw1] at hsize
    exact (Outcome.done.inj hsize).symm
  rcases cv with ⟨bits, w⟩
  simp only at hw1 hw hn
  subst hn
  have hlen := satAddBits_length (c * w) w (effBit 1) bits
  have hb := cell_bound _ _ _ hc
  obtain ⟨bits', h1, h2, h3⟩ := incrementAll_spec (ds.map (fun d => (d, 1)))
    (satAddBits (c * w) w (effBit 1) bits) w hw1 hw (by
      intro op hop
      obtain ⟨d, hd, rfl⟩ := List.mem_map.mp hop
      rw [hlen]
      exact ⟨hds d hd, Nat.one_ne_zero⟩)
  have hc' : c < bits'.length / w := by rw [h2, hlen]; exact hc
  refine ⟨⟨bits', w⟩, cellVal bits' (c * w) w, ?_, Count_mk bits' w c hw1 (by omega) hc', ?_⟩
  · simp only [incrementAll]
    rw [Increment_eq ⟨bits, w⟩ c 1 hw1 hw hc (by decide)]
    exact h1
  · have hmono := h3 c
    rw [satAddBits_val _ _ _ _ hb, fnVal_effBit_one w hw1 hw] at hmono
    have h2w : 2 ≤ 2 ^ w := by
      calc 2 = 2 ^ 1 := rfl
        _ ≤ 2 ^ w := Nat.pow_le_pow_right (by decide) hw1
    omega

/-- Instance of the preceding result: width 1, two cells; add at cell 0, then at cells 1, 0,
0. -/
theorem Increment_count_never_zero_witness :
    ∃ cv' k, incrementAll (CounterVector.new 1 2) ((0, 1) :: [1, 0, 0].map (fun d => (d, 1)))
        = done cv' ∧ cv'.Count 0 = done k ∧ k ≠ 0 :=
  Increment_count_never_zero (CounterVector.new 1 2) 2 0 [1, 0, 0] (by decide) (by decide)
    (by decide) (by decide) (by decide)

/-- C7, at the failing input: on `CounterVector(33, 2)` the first `Increment(1, 1)` evaluates
the `int` shift `1 << 32` in `value & (1 << i)`, whose behaviour is undefined; no state
follows of which `Count(c)` could be taken. The mask should have the type of `value`. -/
theorem Increment_wide_undefined :
    (CounterVector.new 33 2).Size = done 2 ∧
    incrementAll (CounterVector.new 33 2) ((1, 1) :: [].map (fun d => (d, 1)))
      = undefinedBehaviour := by
  decide

/-- Supporting result for C8, where the `int` shifts of the loop are defined: for
`1 ≤ w ≤ 32`, every cell count and every in-range cell, after `n`
calls `Increment(cell, 1)` on a freshly constructed `CounterVector(w, cells)` the counter
holds `min(n, 2^w - 1)`, and for `n ≥ 1` the `n`-th call returns `true` exactly when
`n ≤ 2^w - 1`. -/
theorem Increment_fresh_times (w cells s cell n : Nat) (hw1 : 1 ≤ w) (hw : w ≤ 32)
    (hsize : (CounterVector.new w cells).Size = done s) (hcell : cell < s) :
    ∃ cv' r, incrementTimes (CounterVector.new w cells) cell n = done (cv', r) ∧
      cv'.Count cell = done (min n (2 ^ w - 1)) ∧ (1 ≤ n → (r = true ↔ n ≤ 2 ^ w - 1)) := by
  have hs : s = (CounterVector.new w cells).bits.length / w := by
    rw [Size_eq _ hw1] at hsize
    exact (Outcome.done.inj hsize).symm
  subst hs
  obtain ⟨bits', r, h1, h2, h3, h4⟩ := incrementTimes_spec (CounterVector.new w cells).bits w
    cell n hw1 hw hcell
  have hz : cellVal (CounterVector.new w cells).bits (cell * w) w = 0 := cellVal_replicate _ _ _
  rw [hz, Nat.zero_add] at h3 h4
  refine ⟨⟨bits', w⟩, r, h1, ?_, h4⟩
  rw [Count_mk bits' w cell hw1 (by omega) (by rw [h2]; exact hcell), h3]

/-- Instance of the preceding result, the scenario of the spec: width 4, cells 8, cell 3:
sixteen increments leave 15 and the 16th call returns `false`. -/
theorem Increment_fresh_times_witness :
    ∃ cv' r, incrementTimes (CounterVector.new 4 8) 3 16 = done (cv', r) ∧
      cv'.Count 3 = done (min 16 (2 ^ 4 - 1)) ∧ (1 ≤ 16 → (r = true ↔ 16 ≤ 2 ^ 4 - 1)) :=
  Increment_fresh_times 4 8 8 3 16 (by decide) (by decide) (by decide) (by decide)

/-- C8, at the failing input: on a fresh `CounterVector(34, 3)` already the first
`Increment(2, 1)` is undefined (the loop evaluates `1 << 32` and `1 << 33` on an `int`), so
the counter is not guaranteed to hold `min(1, 2^34 - 1)`. -/
theorem Increment_fresh_wide_undefined :
    (CounterVector.new 34 3).Size = done 3 ∧
    incrementTimes (CounterVector.new 34 3) 2 1 = undefinedBehaviour := by
  decide

/-- C3 (as amended): for a counter vector with `1 ≤ width ≤ 31`, an in-range cell and a value
with `1 ≤ value ≤ Max()`, `Decrement(cell, value)` returns `true` exactly when
`value ≤ Count(cell)` before the call (the subtraction did not go below zero), and `false`
exactly when `value > Count(cell)` (underflow). -/
theorem Decrement_returns_no_borrow (cv : CounterVector) (n cell value m : Nat)
    (hw1 : 1 ≤ cv.width) (hw : cv.width ≤ 31) (hsize : cv.Size = done n) (hcell : cell < n)
    (hv : value ≠ 0) (hmax : cv.Max = done m) (hvm : value ≤ m) :
    ∃ c cv', cv.Count cell = done c ∧
      cv.Decrement cell value = done (cv', decide (value ≤ c)) := by
  have hc := size_cell cv n cell hw1 hsize hcell
  have hm : m = 2 ^ cv.width - 1 := by
    rw [Max_eq cv hw1 (by omega)] at hmax
    exact (Outcome.done.inj hmax).symm
  have hp : 0 < 2 ^ cv.width := Nat.two_pow_pos _
  have hvw : value < 2 ^ cv.width := by omega
  have hvt : value < 2 ^ 64 :=
    Nat.lt_of_lt_of_le hvw (Nat.pow_le_pow_right (by decide) (by omega))
  have hb := cell_bound _ _ _ hc
  have hneg := negate_eq value hv hvt
  have hf : fnVal (effBit (2 ^ 64 - value)) cv.width = 2 ^ cv.width - value := by
    rw [fnVal_effBit cv.width _ (Or.inl hw), negate_mod_small cv.width value (by omega) hv hvw]
  have hsat := satAdd_val (cell * cv.width) (effBit (2 ^ 64 - value)) cv.width cv.bits hb
  rw [hf] at hsat
  have hlt := cellVal_lt cv.bits (cell * cv.width) cv.width
  refine ⟨cellVal cv.bits (cell * cv.width) cv.width,
    ⟨(ripple (cell * cv.width) (effBit (2 ^ 64 - value)) cv.width cv.bits).1, cv.width⟩,
    Count_eq cv cell hw1 (by omega) hc, ?_⟩
  rw [Decrement_eq cv cell value hw1 (by omega) hc hv, hneg, hsat.1]
  congr 2
  apply decide_eq_decide.mpr
  omega

/-- C3, witness: width 2, count 2, value 3: the subtraction underflows and the call returns
`false`. -/
theorem Decrement_returns_no_borrow_witness :
    ∃ c cv', (CounterVector.mk [false, true] 2).Count 0 = done c ∧
      (CounterVector.mk [false, true] 2).Decrement 0 3 = done (cv', decide (3 ≤ c)) :=
  Decrement_returns_no_borrow ⟨[false, true], 2⟩ 1 0 3 3 (by decide) (by decide) (by decide)
    (by decide) (by decide) (by decide) (by decide)

/-- C3, counterexample: width 2, count 1. `Decrement(0, 1)` does not underflow, yet returns
`true`; `Decrement(0, 2)` underflows (`2 > 1`), yet returns `false`. -/
theorem Decrement_return_inverted :
    (CounterVector.mk [true, false] 2).Count 0 = done 1 ∧
    (CounterVector.mk [true, false] 2).Decrement 0 1
      = done (CounterVector.mk [false, false] 2, true) ∧
    (CounterVector.mk [true, false] 2).Decrement 0 2
      = done (CounterVector.mk [true, true] 2, false) := by
  decide

/-- Supporting result for C4, where the `int` mask `1 << i` equals `2^i`: for a counter vector
with `1 ≤ width ≤ 31`, an in-range cell and a
nonzero value (a `count_type`, so below `2^64`), `Decrement(cell, value)` returns and the
counter then holds `(Count(cell) before - value) mod 2^width`: the result wraps around on
underflow and is not clamped. -/
theorem Decrement_wraps (cv : CounterVector) (n cell value : Nat)
    (hw1 : 1 ≤ cv.width) (hw : cv.width ≤ 31) (hsize : cv.Size = done n) (hcell : cell < n)
    (hv : value ≠ 0) (hvt : value < 2 ^ 64) :
    ∃ c cv' r c', cv.Count cell = done c ∧ cv.Decrement cell value = done (cv', r) ∧
      cv'.Count cell = done c' ∧
      (c' : Int) = ((c : Int) - (value : Int)) % (2 ^ cv.width : Int) := by
  have hc := size_cell cv n cell hw1 hsize hcell
  have hb := cell_bound _ _ _ hc
  have hneg := negate_eq value hv hvt
  have hf : fnVal (effBit (2 ^ 64 - value)) cv.width = (2 ^ 64 - value) % 2 ^ cv.width :=
    fnVal_effBit cv.width _ (Or.inl hw)
  have hval := ripple_val (cell * cv.width) (effBit (2 ^ 64 - value)) cv.width cv.bits hb
  rw [hf] at hval
  have hlt := cellVal_lt (ripple (cell * cv.width) (effBit (2 ^ 64 - value)) cv.width cv.bits).1
    (cell * cv.width) cv.width
  have hmod := negate_mod_int cv.width value (by omega) hvt
  refine ⟨cellVal cv.bits (cell * cv.width) cv.width,
    ⟨(ripple (cell * cv.width) (effBit (2 ^ 64 - value)) cv.width cv.bits).1, cv.width⟩,
    (ripple (cell * cv.width) (effBit (2 ^ 64 - value)) cv.width cv.bits).2,
    cellVal (ripple (cell * cv.width) (effBit (2 ^ 64 - value)) cv.width cv.bits).1
      (cell * cv.width) cv.width,
    Count_eq cv cell hw1 (by omega) hc, ?_, ?_, ?_⟩
  · rw [Decrement_eq cv cell value hw1 (by omega) hc hv, hneg]
  · exact Count_mk _ _ _ hw1 (by omega) (by rw [ripple_length]; exact hc)
  · generalize cellVal (ripple (cell * cv.width) (effBit (2 ^ 64 - value)) cv.width cv.bits).1
      (cell * cv.width) cv.width = c' at hval hlt ⊢
    generalize cellVal cv.bits (cell * cv.width) cv.width = c at hval ⊢
    generalize (2 ^ 64 - value) % 2 ^ cv.width = a at hval hmod
    have hk : ∃ k : Int, (c' : Int) + (2 ^ cv.width : Int) * k = (c : Int) + (a : Int) := by
      split at hval
      · exact ⟨1, by rw [mul_one]; exact_mod_cast hval⟩
      · exact ⟨0, by rw [mul_zero]; exact_mod_cast hval⟩
    obtain ⟨k, hk⟩ := hk
    have hc'nn : (0 : Int) ≤ (c' : Int) := Int.ofNat_nonneg _
    have hc'lt : (c' : Int) < (2 ^ cv.width : Int) := by exact_mod_cast hlt
    calc (c' : Int) = (c' : Int) % (2 ^ cv.width : Int) := (Int.emod_eq_of_lt hc'nn hc'lt).symm
      _ = ((c' : Int) + (2 ^ cv.width : Int) * k) % (2 ^ cv.width : Int) := by
          rw [Int.add_mul_emod_self_left]
      _ = ((c : Int) + (a : Int)) % (2 ^ cv.width : Int) := by rw [hk]
      _ = ((c : Int) % (2 ^ cv.width : Int) + (a : Int) % (2 ^ cv.width : Int))
            % (2 ^ cv.width : Int) := Int.add_emod _ _ _
      _ = ((c : Int) % (2 ^ cv.width : Int) + (-(value : Int)) % (2 ^ cv.width : Int))
            % (2 ^ cv.width : Int) := by rw [hmod]
      _ = ((c : Int) + -(value : Int)) % (2 ^ cv.width : Int) := (Int.add_emod _ _ _).symm
      _ = ((c : Int) - (value : Int)) % (2 ^ cv.width : Int) := by rw [Int.sub_eq_add_neg]

/-- Instance of the preceding result: width 3, count 2, value 5: the counter wraps to
`(2 - 5) mod 8 = 5`. -/
theorem Decrement_wraps_witness :
    ∃ c cv' r c', (CounterVector.mk [false, true, false] 3).Count 0 = done c ∧
      (CounterVector.mk [false, true, false] 3).Decrement 0 5 = done (cv', r) ∧
      cv'.Count 0 = done c' ∧ (c' : Int) = ((c : Int) - ((5 : Nat) : Int)) % (2 ^ 3 : Int) :=
  Decrement_wraps ⟨[false, true, false], 3⟩ 1 0 5 (by decide) (by decide) (by decide)
    (by decide) (by decide) (by decide)

/-- C4, at the failing input: with width 32 the test of bit 31 uses `1 << 31`, which is `INT_MIN`
and converts to a mask of bits 31 to 63; from the count `2^31 + 1`, `Decrement` by
`2^31 + 1` leaves `2^31` instead of `0`. With width 33 the loop evaluates `1 << 32`, whose
behaviour is undefined. -/
theorem Decrement_wide_wrong :
    (CounterVector.mk (true :: List.replicate 30 false ++ [true]) 32).Count 0
      = done (2 ^ 31 + 1) ∧
    (do let r ← (CounterVector.mk (true :: List.replicate 30 false ++ [true]) 32).Decrement 0
          (2 ^ 31 + 1)
        r.1.Count 0) = done (2 ^ 31) ∧
    (((2 ^ 31 + 1 : Nat) : Int) - ((2 ^ 31 + 1 : Nat) : Int)) % (2 ^ 32 : Int) = 0 ∧
    (CounterVector.new 33 1).Decrement 0 1 = undefinedBehaviour := by
  decide

/-- C5 (as amended): for two counter vectors `a` and `b` with the same width, `1 ≤ width ≤ 64`,
and the same number of cells, `a.Merge(b)` returns, and afterwards every cell `c` satisfies
`Count_a'(c) = min(Count_a(c) + Count_b(c), Max())`, a function of the two inputs' cell `c`
alone, with `Size()` and `Width()` of `a` unchanged. -/
theorem Merge_cellwise_saturating (a b : CounterVector) (n : Nat) (hw1 : 1 ≤ a.width)
    (hw : a.width ≤ 64) (hwidth : a.Width = b.Width) (hsa : a.Size = done n)
    (hsb : b.Size = done n) :
    ∃ a' m, a.Merge b = done a' ∧ a'.Size = done n ∧ a'.Width = a.Width ∧ a.Max = done m ∧
      ∀ c, c < n → ∃ ca cb, a.Count c = done ca ∧ b.Count c = done cb ∧
        a'.Count c = done (min (ca + cb) m) := by
  have hwidth' : a.width = b.width := hwidth
  have hna : n = a.bits.length / a.width := by
    rw [Size_eq a hw1] at hsa
    exact (Outcome.done.inj hsa).symm
  have hnb : n = b.bits.length / b.width := by
    rw [Size_eq b (by omega)] at hsb
    exact (Outcome.done.inj hsb).symm
  have hlen : n * a.width ≤ a.bits.length := by
    rw [hna]; exact Nat.div_mul_le_self _ _
  have hml := mergeBits_length a.width b.bits n a.bits
  refine ⟨⟨mergeBits a.width b.bits n a.bits, a.width⟩, 2 ^ a.width - 1, ?_, ?_, rfl,
    Max_eq a hw1 hw, ?_⟩
  · rw [Merge_eq a b hw1 hwidth' (by rw [← hna, ← hnb]), ← hna]
  · rw [Size_mk _ _ hw1, hml, ← hna]
  · intro c hc
    refine ⟨cellVal a.bits (c * a.width) a.width, cellVal b.bits (c * a.width) a.width,
      Count_eq a c hw1 hw (by rw [← hna]; exact hc), ?_, ?_⟩
    · rw [Count_eq b c (by omega) (by omega) (by rw [← hnb]; exact hc), hwidth']
    · rw [Count_mk _ _ _ hw1 hw (by rw [hml, ← hna]; exact hc),
        mergeBits_val _ _ _ _ _ hc hlen]

/-- C5, witness: width 2, two cells; `[1, 2]` merged with `[1, 3]` gives `[2, 3]`. -/
theorem Merge_cellwise_saturating_witness :
    ∃ a' m, (CounterVector.mk [true, false, false, true] 2).Merge
        (CounterVector.mk [true, false, true, true] 2) = done a' ∧
      a'.Size = done 2 ∧ a'.Width = (CounterVector.mk [true, false, false, true] 2).Width ∧
      (CounterVector.mk [true, false, false, true] 2).Max = done m ∧
      ∀ c, c < 2 → ∃ ca cb, (CounterVector.mk [true, false, false, true] 2).Count c = done ca ∧
        (CounterVector.mk [true, false, true, true] 2).Count c = done cb ∧
        a'.Count c = done (min (ca + cb) m) :=
  Merge_cellwise_saturating ⟨[true, false, false, true], 2⟩ ⟨[true, false, true, true], 2⟩ 2
    (by decide) (by decide) (by decide) (by decide) (by decide)

/-- C5, counterexample: with width 65 a cell holding `2^64 - 1` merged with a cell holding 1
becomes the bit pattern of `2^64`, which `Count` reads as 0 (its 64-bit `order` has been
shifted out), although `Count_a + Count_b = 2^64`; and `Max()` shifts by `64 - 65` taken as a
`size_t`, which is undefined. -/
theorem Merge_wide_cell_wrong :
    (CounterVector.mk (List.replicate 64 true ++ [false]) 65).Count 0 = done (2 ^ 64 - 1) ∧
    (CounterVector.mk (true :: List.replicate 64 false) 65).Count 0 = done 1 ∧
    (do let a' ← (CounterVector.mk (List.replicate 64 true ++ [false]) 65).Merge
          (CounterVector.mk (true :: List.replicate 64 false) 65)
        a'.Count 0) = done 0 ∧
    (CounterVector.mk (List.replicate 64 true ++ [false]) 65).Max = undefinedBehaviour := by
  decide

/-- C6: for two counter vectors `x` and `y` with the same width and the same cell count `n`
(each packed into `width * n` bits, so that `Size()` is `n` for both), `operator|(x, y)` and
`operator|(y, x)` end the same way, and for `width ≥ 1` both return one and the same counter
vector, hence the same bits and the same `Count(cell)` for every cell. -/
theorem or_commutative (x y : CounterVector) (n : Nat) (hwidth : x.Width = y.Width)
    (hx : x.bits.length = x.width * n) (hy : y.bits.length = y.width * n) :
    x.or y = y.or x ∧
      (1 ≤ x.width → x.Size = done n ∧ y.Size = done n ∧
        ∃ v, x.or y = done v ∧ y.or x = done v) := by
  have hwidth' : x.width = y.width := hwidth
  rcases Nat.eq_zero_or_pos x.width with h0 | hpos
  · refine ⟨?_, fun h => absurd h (by omega)⟩
    have h0' : y.width = 0 := by omega
    simp [CounterVector.or, CounterVector.Merge, CounterVector.Size, h0, h0']
  · have hpy : 0 < y.width := by omega
    have hnx : x.bits.length / x.width = n := by rw [hx]; exact Nat.mul_div_cancel_left n hpos
    have hny : y.bits.length / y.width = n := by rw [hy]; exact Nat.mul_div_cancel_left n hpy
    have hxy : x.or y = done ⟨mergeBits x.width y.bits n x.bits, x.width⟩ := by
      have := Merge_eq ⟨x.bits, x.width⟩ y hpos hwidth' (by rw [hny]; exact hnx)
      rw [hnx] at this
      exact this
    have hyx : y.or x = done ⟨mergeBits y.width x.bits n y.bits, y.width⟩ := by
      have := Merge_eq ⟨y.bits, y.width⟩ x hpy hwidth'.symm (by rw [hnx]; exact hny)
      rw [hny] at this
      exact this
    have heq : mergeBits x.width y.bits n x.bits = mergeBits y.width x.bits n y.bits := by
      apply bits_ext_cells _ _ x.width n (by rw [mergeBits_length, hx])
        (by rw [mergeBits_length, hy, hwidth'])
      intro c hc
      rw [mergeBits_val _ _ _ _ _ hc (by rw [hx, Nat.mul_comm]), ← hwidth',
        mergeBits_val _ _ _ _ _ hc (by rw [hy, hwidth', Nat.mul_comm]), Nat.add_comm]
    have hvec : (⟨mergeBits x.width y.bits n x.bits, x.width⟩ : CounterVector)
        = ⟨mergeBits y.width x.bits n y.bits, y.width⟩ := by rw [heq, hwidth']
    refine ⟨by rw [hxy, hyx, hvec], fun _ => ⟨?_, ?_, _, hxy, by rw [hyx, hvec]⟩⟩
    · rw [Size_eq x hpos, hnx]
    · rw [Size_eq y hpy, hny]

/-- C6, witness: width 2, two cells; `[1, 2] | [1, 3]` and `[1, 3] | [1, 2]` agree. -/
theorem or_commutative_witness :
    (CounterVector.mk [true, false, false, true] 2).or (CounterVector.mk [true, false, true, true] 2)
      = (CounterVector.mk [true, false, true, true] 2).or
          (CounterVector.mk [true, false, false, true] 2) ∧
    (1 ≤ 2 → (CounterVector.mk [true, false, false, true] 2).Size = done 2 ∧
      (CounterVector.mk [true, false, true, true] 2).Size = done 2 ∧
      ∃ v, (CounterVector.mk [true, false, false, true] 2).or
          (CounterVector.mk [true, false, true, true] 2) = done v ∧
        (CounterVector.mk [true, false, true, true] 2).or
          (CounterVector.mk [true, false, false, true] 2) = done v) :=
  or_commutative ⟨[true, false, false, true], 2⟩ ⟨[true, false, true, true], 2⟩ 2 (by decide)
    (by decide) (by decide)


/-- C9 (as amended): for two counter vectors `a` and `b` of equal width, `1 ≤ width ≤ 64`,
and equal cell count, and a non-empty list `i :: rest` of in-range cells, the
minimum-of-cells estimate on `a | b` is at least the saturated sum of the two inputs'
estimates: `min_I Count_{a|b} ≥ min(min_I Count_a + min_I Count_b, Max())`. -/
theorem merged_estimate_lower_bound (a b : CounterVector) (n i : Nat) (rest : List Nat)
    (hw1 : 1 ≤ a.width) (hw : a.width ≤ 64) (hwidth : a.Width = b.Width)
    (hsa : a.Size = done n) (hsb : b.Size = done n) (hI : ∀ j ∈ i :: rest, j < n) :
    ∃ ab ea eb eab m, a.or b = done ab ∧ minCount a i rest = done ea ∧
      minCount b i rest = done eb ∧ minCount ab i rest = done eab ∧ a.Max = done m ∧
      min (ea + eb) m ≤ eab := by
  have hwidth' : a.width = b.width := hwidth
  have hna : n = a.bits.length / a.width := by
    rw [Size_eq a hw1] at hsa
    exact (Outcome.done.inj hsa).symm
  have hnb : n = b.bits.length / b.width := by
    rw [Size_eq b (by omega)] at hsb
    exact (Outcome.done.inj hsb).symm
  have hlen : n * a.width ≤ a.bits.length := by
    rw [hna]; exact Nat.div_mul_le_self _ _
  have hml := mergeBits_length a.width b.bits n a.bits
  obtain ⟨ea, ha1, ha2, _⟩ := minCount_spec a.bits a.width hw1 hw i rest
    (fun j hj => by rw [← hna]; exact hI j hj)
  obtain ⟨eb, hb1, hb2, _⟩ := minCount_spec b.bits b.width (by omega) (by omega) i rest
    (fun j hj => by rw [← hnb]; exact hI j hj)
  obtain ⟨eab, hab1, _, j0, hj0, hab3⟩ := minCount_spec (mergeBits a.width b.bits n a.bits)
    a.width hw1 hw i rest (fun j hj => by rw [hml, ← hna]; exact hI j hj)
  refine ⟨⟨mergeBits a.width b.bits n a.bits, a.width⟩, ea, eb, eab, 2 ^ a.width - 1, ?_, ha1,
    hb1, hab1, Max_eq a hw1 hw, ?_⟩
  · have := Merge_eq ⟨a.bits, a.width⟩ b hw1 hwidth' (by rw [← hna, ← hnb])
    rw [← hna] at this
    exact this
  · rw [hab3, mergeBits_val _ _ _ _ _ (hI j0 hj0) hlen]
    have h1 := ha2 j0 hj0
    have h2 := hb2 j0 hj0
    rw [← hwidth'] at h2
    omega

set_option maxRecDepth 100000 in
/-- C9, witness: width 3, cells 50; each input had one element, hashed to the cells 7, 19
and 33, added twice, so each estimate is 2, and the estimate on the merged vector is 4. -/
theorem merged_estimate_lower_bound_witness :
    (∃ ab ea eb eab m, barTwice.or barTwice = done ab ∧ minCount barTwice 7 [19, 33] = done ea ∧
      minCount barTwice 7 [19, 33] = done eb ∧ minCount ab 7 [19, 33] = done eab ∧
      barTwice.Max = done m ∧ min (ea + eb) m ≤ eab) ∧
    minCount barTwice 7 [19, 33] = done 2 ∧
    (do let ab ← barTwice.or barTwice
        minCount ab 7 [19, 33]) = done 4 :=
  ⟨merged_estimate_lower_bound barTwice barTwice 50 7 [19, 33] (by decide) (by decide)
    (by decide) (by decide) (by decide) (by decide), by decide, by decide⟩

/-- C9, counterexample: with width 65, two cells holding `2^64 - 1` and 1 merge into the bit
pattern of `2^64`, which `Count` reads as 0: the merged estimate is 0 although both inputs'
estimates are positive, and `Max()` is undefined for this width. -/
theorem merged_estimate_wide_wrong :
    minCount (CounterVector.mk (List.replicate 64 true ++ [false]) 65) 0 []
      = done (2 ^ 64 - 1) ∧
    minCount (CounterVector.mk (true :: List.replicate 64 false) 65) 0 [] = done 1 ∧
    (do let ab ← (CounterVector.mk (List.replicate 64 true ++ [false]) 65).or
          (CounterVector.mk (true :: List.replicate 64 false) 65)
        minCount ab 0 []) = done 0 ∧
    (CounterVector.mk (List.replicate 64 true ++ [false]) 65).Max = undefinedBehaviour := by
  decide

/-- C11: for every width `w` with `1 ≤ w ≤ 64`, `Max()` returns `2^w - 1`, and this is the
all-ones `size_t` value shifted right by `64 - w`. -/
theorem Max_all_ones_shifted (cv : CounterVector) (hw1 : 1 ≤ cv.width) (hw : cv.width ≤ 64) :
    cv.Max = done (2 ^ cv.width - 1) ∧ 2 ^ cv.width - 1 = (2 ^ 64 - 1) >>> (64 - cv.width) := by
  refine ⟨Max_eq cv hw1 hw, ?_⟩
  rcases cv with ⟨bits, w⟩
  simp only at hw1 hw ⊢
  interval_cases w <;> rfl

/-- C11, witness: width 4 gives `Max() = 15`. -/
theorem Max_all_ones_shifted_witness :
    (CounterVector.new 4 8).Max = done (2 ^ 4 - 1) ∧ 2 ^ 4 - 1 = (2 ^ 64 - 1) >>> (64 - 4) :=
  Max_all_ones_shifted (CounterVector.new 4 8) (by decide) (by decide)

/-- C12 (as amended): for every width `≥ 1` and every cell count with `width * cells < 2^64`
(the product fits a `size_t`), a freshly constructed `CounterVector(width, cells)` has
`Size() == cells`, `Width() == width`, and `Count(c) == 0` for every cell `c < cells`. -/
theorem new_size_width_zero (width cells : Nat) (hw1 : 1 ≤ width)
    (hfit : width * cells < 2 ^ 64) :
    (CounterVector.new width cells).Size = done cells ∧
    (CounterVector.new width cells).Width = width ∧
    ∀ c, c < cells → (CounterVector.new width cells).Count c = done 0 := by
  have hlen : (CounterVector.new width cells).bits.length = width * cells := by
    simp only [CounterVector.new, sizeDigits, List.length_replicate]
    exact Nat.mod_eq_of_lt hfit
  have hdiv : width * cells / width = cells := Nat.mul_div_cancel_left cells (by omega)
  have hsize : (CounterVector.new width cells).Size = done cells := by
    rw [Size_eq _ hw1, hlen]
    show done (width * cells / width) = _
    rw [hdiv]
  refine ⟨hsize, rfl, fun c hc => ?_⟩
  simp only [CounterVector.Count, hsize, done_bind, hc, decide_True, check_true, pure_eq]
  simp only [CounterVector.new, countLoop_replicate, Nat.zero_mod]

/-- C12, witness: `CounterVector(4, 8)` has 8 cells of width 4, all zero. -/
theorem new_size_width_zero_witness :
    (CounterVector.new 4 8).Size = done 8 ∧ (CounterVector.new 4 8).Width = 4 ∧
    ∀ c, c < 8 → (CounterVector.new 4 8).Count c = done 0 :=
  new_size_width_zero 4 8 (by decide) (by decide)

/-- C12, counterexample: `width * cells` is a `size_t` product. `CounterVector(2, 2^63)`
asks for `2^64` bits, which wraps to a bit vector of 0 bits, so `Size()` is 0, not `2^63`,
and `Count(0)` fails its assertion. -/
theorem new_size_wraps :
    (CounterVector.new 2 (2 ^ 63)).bits = [] ∧
    (CounterVector.new 2 (2 ^ 63)).Size = done 0 ∧
    (CounterVector.new 2 (2 ^ 63)).Count 0 = assertFailed := by
  decide

/-- C13: for two counter vectors whose `Size()` is defined (width `≥ 1`), `Merge(other)` ends
in an assertion failure exactly when the two differ in `Size()` or in `Width()`, and returns
the merged vector otherwise. Both assertions precede the loops, so a rejected call has
written no bit: it yields no vector at all. -/
theorem Merge_rejects_mismatch (a b : CounterVector) (na nb : Nat) (hsa : a.Size = done na)
    (hsb : b.Size = done nb) :
    (a.Merge b = assertFailed ↔ (na ≠ nb ∨ a.Width ≠ b.Width)) ∧
    (na = nb → a.Width = b.Width → ∃ a', a.Merge b = done a') ∧
    a.Merge b = (do
      check (decide (na = nb))
      check (decide (a.Width = b.Width))
      let bits ← CounterVector.mergeLoop a.width b.bits na a.bits
      pure ⟨bits, a.width⟩) := by
  have hdef : a.Merge b = (do
      check (decide (na = nb))
      check (decide (a.Width = b.Width))
      let bits ← CounterVector.mergeLoop a.width b.bits na a.bits
      pure ⟨bits, a.width⟩) := by
    simp only [CounterVector.Merge, hsa, hsb, done_bind]
  refine ⟨?_, ?_, hdef⟩
  · rw [hdef]
    by_cases h1 : na = nb
    · by_cases h2 : a.Width = b.Width
      · simp [h1, h2, mergeLoop_eq]
      · simp [h1, h2]
    · simp [h1]
  · intro h1 h2
    rw [hdef]
    exact ⟨⟨mergeBits a.width b.bits na a.bits, a.width⟩, by simp [h1, h2, mergeLoop_eq]⟩

/-- C13, witness: a vector of two cells of width 2 against one of one cell of width 2. -/
theorem Merge_rejects_mismatch_witness :
    (CounterVector.new 2 2).Merge (CounterVector.new 2 1) = assertFailed :=
  ((Merge_rejects_mismatch (CounterVector.new 2 2) (CounterVector.new 2 1) 2 1 (by decide)
    (by decide)).1).mpr (Or.inl (by decide))

/-- Supporting result for C14: for a counter vector with width `≥ 1`, `Increment(cell, value)` and
`Decrement(cell, value)` end in an assertion failure (the vector left as it was) exactly when
`cell ≥ Size()` or `value == 0`, and `Count(cell)` exactly when `cell ≥ Size()`. `Count`
returns for every other input; `Increment` and `Decrement` return for every other input when
`width ≤ 32`. -/
theorem assertions_fail_fast (cv : CounterVector) (n cell value : Nat) (hw1 : 1 ≤ cv.width)
    (hsize : cv.Size = done n) :
    (cv.Increment cell value = assertFailed ↔ (n ≤ cell ∨ value = 0)) ∧
    (cv.Decrement cell value = assertFailed ↔ (n ≤ cell ∨ value = 0)) ∧
    (cv.Count cell = assertFailed ↔ n ≤ cell) ∧
    (cell < n → ∃ c, cv.Count cell = done c) ∧
    (cv.width ≤ 32 → cell < n → value ≠ 0 →
      (∃ r, cv.Increment cell value = done r) ∧ (∃ r, cv.Decrement cell value = done r)) := by
  have hc : ∀ h : cell < n, cell < cv.bits.length / cv.width :=
    fun h => size_cell cv n cell hw1 hsize h
  refine ⟨?_, ?_, ?_, ?_, ?_⟩
  · by_cases h1 : cell < n
    · by_cases h2 : value = 0
      · simp [CounterVector.Increment, hsize, h1, h2]
      · have hne := rippleLoop_ne_assertFailed (cell * cv.width) (valueBit value)
          (valueBit_ne_assertFailed value) cv.width cv.bits
        simp only [CounterVector.Increment, hsize, done_bind, h1, decide_True, check_true, h2,
          ne_eq, not_false_eq_true]
        cases hr : rippleLoop (cell * cv.width) (valueBit value) cv.width cv.bits with
        | done a => simp; omega
        | assertFailed => exact absurd hr hne
        | undefinedBehaviour => simp; omega
    · simp [CounterVector.Increment, hsize, h1]; omega
  · by_cases h1 : cell < n
    · by_cases h2 : value = 0
      · simp [CounterVector.Decrement, hsize, h1, h2]
      · have hne := rippleLoop_ne_assertFailed (cell * cv.width)
          (valueBit ((2 ^ countDigits - 1 - value + 1) % 2 ^ countDigits))
          (valueBit_ne_assertFailed _) cv.width cv.bits
        simp only [CounterVector.Decrement, hsize, done_bind, h1, decide_True, check_true, h2,
          ne_eq, not_false_eq_true]
        cases hr : rippleLoop (cell * cv.width)
            (valueBit ((2 ^ countDigits - 1 - value + 1) % 2 ^ countDigits)) cv.width cv.bits with
        | done a => simp; omega
        | assertFailed => exact absurd hr hne
        | undefinedBehaviour => simp; omega
    · simp [CounterVector.Decrement, hsize, h1]; omega
  · by_cases h1 : cell < n
    · simp [CounterVector.Count, hsize, h1]
    · simp [CounterVector.Count, hsize, h1]; omega
  · intro h1
    exact ⟨(CounterVector.countLoop cv.bits (cell * cv.width) cv.width).1 % 2 ^ countDigits,
      by simp only [CounterVector.Count, hsize, done_bind, h1, decide_True, check_true, pure_eq]⟩
  · intro hw h1 h2
    exact ⟨⟨_, Increment_eq cv cell value hw1 hw (hc h1) h2⟩,
      ⟨_, Decrement_eq cv cell value hw1 hw (hc h1) h2⟩⟩

/-- Instance of the preceding result: on a vector of 8 cells, cell 8 is out of range and the
assertion fires. -/
theorem assertions_fail_fast_witness :
    (CounterVector.new 4 8).Increment 8 1 = assertFailed :=
  ((assertions_fail_fast (CounterVector.new 4 8) 8 8 1 (by decide) (by decide)).1).mpr
    (Or.inl (by decide))

/-- C14, at the failing input: with width 33, an in-range cell and a nonzero value, neither
`Increment` nor `Decrement` fails an assertion, and neither completes normally: the loop
evaluates the `int` shift `1 << 32`, whose behaviour is undefined. -/
theorem wide_call_neither_fails_nor_returns :
    (CounterVector.new 33 2).Size = done 2 ∧
    (CounterVector.new 33 2).Increment 0 1 = undefinedBehaviour ∧
    (CounterVector.new 33 2).Decrement 0 1 = undefinedBehaviour := by
  decide

/-- Supporting result for C17, where the `int` shifts of the loops are defined: for a counter
vector with `1 ≤ width ≤ 32`, an in-range cell `c` and a
nonzero value, `Increment(c, value)` and `Decrement(c, value)` return and leave `Size()`,
`Width()` and every bit outside the positions `[c*width, c*width + width)` unchanged, hence
`Count(d)` unchanged for every other cell `d ≠ c`. -/
theorem Increment_Decrement_frame (cv : CounterVector) (n c value : Nat) (hw1 : 1 ≤ cv.width)
    (hw : cv.width ≤ 32) (hsize : cv.Size = done n) (hcell : c < n) (hv : value ≠ 0) :
    (∃ cv' r, cv.Increment c value = done (cv', r) ∧ cv'.Size = cv.Size ∧
      cv'.Width = cv.Width ∧ cv'.bits.length = cv.bits.length ∧
      (∀ j, (j < c * cv.width ∨ c * cv.width + cv.width ≤ j) →
        cv'.bits.getD j false = cv.bits.getD j false) ∧
      ∀ d, d ≠ c → cv'.Count d = cv.Count d) ∧
    (∃ cv' r, cv.Decrement c value = done (cv', r) ∧ cv'.Size = cv.Size ∧
      cv'.Width = cv.Width ∧ cv'.bits.length = cv.bits.length ∧
      (∀ j, (j < c * cv.width ∨ c * cv.width + cv.width ≤ j) →
        cv'.bits.getD j false = cv.bits.getD j false) ∧
      ∀ d, d ≠ c → cv'.Count d = cv.Count d) := by
  have hc := size_cell cv n c hw1 hsize hcell
  have hframe : ∀ bits' : List Bool, bits'.length = cv.bits.length →
      (∀ j, (j < c * cv.width ∨ c * cv.width + cv.width ≤ j) →
        bits'.getD j false = cv.bits.getD j false) →
      (CounterVector.mk bits' cv.width).Size = cv.Size ∧
      (∀ d, d ≠ c → (CounterVector.mk bits' cv.width).Count d = cv.Count d) := by
    intro bits' hlen hout
    have hs : (CounterVector.mk bits' cv.width).Size = cv.Size := by
      rw [Size_mk _ _ hw1, Size_eq cv hw1, hlen]
    refine ⟨hs, fun d hd => ?_⟩
    have hloop : CounterVector.countLoop bits' (d * cv.width) cv.width
        = CounterVector.countLoop cv.bits (d * cv.width) cv.width := by
      apply countLoop_congr
      intro i hi
      apply hout
      by_contra hcon
      exact cells_disjoint cv.width d c i (d * cv.width + i - c * cv.width) hd hi
        (by omega) (by omega)
    simp only [CounterVector.Count, hs, hloop]
  constructor
  · have hlen := satAddBits_length (c * cv.width) cv.width (effBit value) cv.bits
    have hout := satAddBits_getD_out (c * cv.width) cv.width (effBit value) cv.bits
    obtain ⟨h1, h2⟩ := hframe _ hlen hout
    exact ⟨_, _, Increment_eq cv c value hw1 hw hc hv, h1, rfl, hlen, hout, h2⟩
  · have hlen := ripple_length (c * cv.width) (effBit ((2 ^ 64 - 1 - value + 1) % 2 ^ 64))
      cv.width cv.bits
    have hout := ripple_getD_out (c * cv.width) (effBit ((2 ^ 64 - 1 - value + 1) % 2 ^ 64))
      cv.width cv.bits
    obtain ⟨h1, h2⟩ := hframe _ hlen hout
    exact ⟨_, _, Decrement_eq cv c value hw1 hw hc hv, h1, rfl, hlen, hout, h2⟩

/-- Instance of the preceding result: width 2, three cells `[1, 2, 3]`; incrementing or
decrementing cell 1
leaves the cells 0 and 2 as they were. -/
theorem Increment_Decrement_frame_witness :
    (∃ cv' r, (CounterVector.mk [true, false, false, true, true, true] 2).Increment 1 3
        = done (cv', r) ∧
      cv'.Size = (CounterVector.mk [true, false, false, true, true, true] 2).Size ∧
      cv'.Width = (CounterVector.mk [true, false, false, true, true, true] 2).Width ∧
      cv'.bits.length = [true, false, false, true, true, true].length ∧
      (∀ j, (j < 1 * 2 ∨ 1 * 2 + 2 ≤ j) →
        cv'.bits.getD j false = [true, false, false, true, true, true].getD j false) ∧
      ∀ d, d ≠ 1 →
        cv'.Count d = (CounterVector.mk [true, false, false, true, true, true] 2).Count d) ∧
    (∃ cv' r, (CounterVector.mk [true, false, false, true, true, true] 2).Decrement 1 3
        = done (cv', r) ∧
      cv'.Size = (CounterVector.mk [true, false, false, true, true, true] 2).Size ∧
      cv'.Width = (CounterVector.mk [true, false, false, true, true, true] 2).Width ∧
      cv'.bits.length = [true, false, false, true, true, true].length ∧
      (∀ j, (j < 1 * 2 ∨ 1 * 2 + 2 ≤ j) →
        cv'.bits.getD j false = [true, false, false, true, true, true].getD j false) ∧
      ∀ d, d ≠ 1 →
        cv'.Count d = (CounterVector.mk [true, false, false, true, true, true] 2).Count d) :=
  Increment_Decrement_frame ⟨[true, false, false, true, true, true], 2⟩ 3 1 3 (by decide)
    (by decide) (by decide) (by decide) (by decide)

/-- C17, at the failing input: with width 35, an in-range cell and a nonzero value, `Increment`
and `Decrement` have undefined behaviour (the `int` shifts `1 << 32` to `1 << 34`), so
nothing is guaranteed about the other cells. -/
theorem frame_wide_undefined :
    (CounterVector.new 35 3).Size = done 3 ∧
    (CounterVector.new 35 3).Increment 1 2 = undefinedBehaviour ∧
    (CounterVector.new 35 3).Decrement 1 2 = undefinedBehaviour := by
  decide

/-- Supporting result for C18, where the `int` mask `1 << i` equals `2^i`: for a counter vector
with `1 ≤ width ≤ 31`, an in-range cell and a
nonzero value (a `count_type`, so below `2^64`), if `Increment(cell, value)` returns `true`
then a following `Decrement(cell, value)` restores the vector to exactly its bits before the
`Increment`. When `Increment` saturated, the `Decrement` need not restore the previous
count: from the count 3 of a width-2 cell, `Increment(0, 1)` clamps and `Decrement(0, 1)`
then leaves 2. -/
theorem Increment_Decrement_roundtrip (cv : CounterVector) (n cell value : Nat)
    (hw1 : 1 ≤ cv.width) (hw : cv.width ≤ 31) (hsize : cv.Size = done n) (hcell : cell < n)
    (hv : value ≠ 0) (hvt : value < 2 ^ 64) :
    (∃ cv' r, cv.Increment cell value = done (cv', r) ∧
      (r = true → ∃ r', cv'.Decrement cell value = done (cv, r'))) ∧
    (∃ cv1 cv2 r', (CounterVector.mk [true, true] 2).Increment 0 1 = done (cv1, false) ∧
      cv1.Decrement 0 1 = done (cv2, r') ∧ cv2 ≠ CounterVector.mk [true, true] 2) := by
  have hc := size_cell cv n cell hw1 hsize hcell
  have hb := cell_bound _ _ _ hc
  have hf : fnVal (effBit value) cv.width = value % 2 ^ cv.width :=
    fnVal_effBit cv.width value (Or.inl hw)
  have hsat := satAdd_val (cell * cv.width) (effBit value) cv.width cv.bits hb
  rw [hf] at hsat
  have hlen := satAddBits_length (cell * cv.width) cv.width (effBit value) cv.bits
  have hclt := cellVal_lt cv.bits (cell * cv.width) cv.width
  constructor
  · refine ⟨_, _, Increment_eq cv cell value hw1 (by omega) hc hv, ?_⟩
    intro hr
    have hcarry : (ripple (cell * cv.width) (effBit value) cv.width cv.bits).2 = false := by
      simpa using hr
    have hno : ¬ 2 ^ cv.width ≤ cellVal cv.bits (cell * cv.width) cv.width
        + value % 2 ^ cv.width := by
      have := hsat.1
      rw [hcarry] at this
      exact of_decide_eq_false this.symm
    have hval' : cellVal (satAddBits (cell * cv.width) cv.width (effBit value) cv.bits)
        (cell * cv.width) cv.width
        = cellVal cv.bits (cell * cv.width) cv.width + value % 2 ^ cv.width := by
      rw [satAddBits_val _ _ _ _ hb, hf]
      omega
    have hc' : cell < (satAddBits (cell * cv.width) cv.width (effBit value) cv.bits).length
        / cv.width := by rw [hlen]; exact hc
    have hdec := Decrement_mk (satAddBits (cell * cv.width) cv.width (effBit value) cv.bits)
      cv.width cell value hw1 (by omega) hc' hv
    rw [negate_eq value hv hvt] at hdec
    have hint := ripple_negate_val
      (satAddBits (cell * cv.width) cv.width (effBit value) cv.bits) (cell * cv.width) cv.width
      value hw hvt (by rw [hlen]; exact hb)
    rw [hval', add_mod_sub_emod _ _ _ hclt] at hint
    have hbits : (ripple (cell * cv.width) (effBit (2 ^ 64 - value)) cv.width
        (satAddBits (cell * cv.width) cv.width (effBit value) cv.bits)).1 = cv.bits := by
      apply bits_eq_of_cell _ _ (cell * cv.width) cv.width
      · rw [ripple_length, hlen]
      · intro j hj
        rw [ripple_getD_out _ _ _ _ _ hj, satAddBits_getD_out _ _ _ _ _ hj]
      · exact_mod_cast hint
    refine ⟨(ripple (cell * cv.width) (effBit (2 ^ 64 - value)) cv.width
      (satAddBits (cell * cv.width) cv.width (effBit value) cv.bits)).2, ?_⟩
    rw [hdec, hbits]
  · exact ⟨⟨[true, true], 2⟩, ⟨[false, true], 2⟩, true, by decide, by decide, by decide⟩

/-- Instance of the preceding result: width 3, count 2; `Increment(0, 5)` gives 7 and returns
`true`, and
`Decrement(0, 5)` restores the bits. -/
theorem Increment_Decrement_roundtrip_witness :
    (∃ cv' r, (CounterVector.mk [false, true, false] 3).Increment 0 5 = done (cv', r) ∧
      (r = true → ∃ r', cv'.Decrement 0 5 = done (CounterVector.mk [false, true, false] 3, r'))) ∧
    (∃ cv1 cv2 r', (CounterVector.mk [true, true] 2).Increment 0 1 = done (cv1, false) ∧
      cv1.Decrement 0 1 = done (cv2, r') ∧ cv2 ≠ CounterVector.mk [true, true] 2) :=
  Increment_Decrement_roundtrip ⟨[false, true, false], 3⟩ 1 0 5 (by decide) (by decide)
    (by decide) (by decide) (by decide) (by decide)

/-- C18, at the failing input: with width 32, `Increment(0, 2^31 + 1)` on a zero counter returns
`true` and stores `2^31 + 1`, but `Decrement(0, 2^31 + 1)` then leaves `2^31`, not the
original bits: bit 31 of the negated value is tested through the mask `1 << 31`, which covers
bits 31 to 63. With width 33 both calls are undefined. -/
theorem roundtrip_wide_fails :
    (do let r ← (CounterVector.new 32 1).Increment 0 (2 ^ 31 + 1)
        pure r.2) = done true ∧
    (do let r ← (CounterVector.new 32 1).Increment 0 (2 ^ 31 + 1)
        let r' ← r.1.Decrement 0 (2 ^ 31 + 1)
        r'.1.Count 0) = done (2 ^ 31) ∧
    (CounterVector.new 32 1).Count 0 = done 0 ∧
    (CounterVector.new 33 1).Increment 0 (2 ^ 31 + 1) = undefinedBehaviour := by
  decide

/-- C20: for a counter vector with `1 ≤ width ≤ 31`, an in-range cell and a nonzero value,
`Increment(cell, value)` acts as the saturating addition of `value mod 2^width`: it returns,
`Count(cell)` becomes `min(Count(cell) + value mod 2^width, Max())`, the result is `true`
exactly when `Count(cell) + value mod 2^width ≤ Max()`, and when `value mod 2^width ≠ 0` the
call agrees in bits and result with `Increment(cell, value mod 2^width)`. For a nonzero
multiple of `2^width` the vector is left unchanged and the call returns `true`. -/
theorem Increment_reads_low_bits (cv : CounterVector) (n cell value : Nat)
    (hw1 : 1 ≤ cv.width) (hw : cv.width ≤ 31) (hsize : cv.Size = done n) (hcell : cell < n)
    (hv : value ≠ 0) :
    (∃ c cv', cv.Count cell = done c ∧ cv.Max = done (2 ^ cv.width - 1) ∧
      cv.Increment cell value
        = done (cv', decide (c + value % 2 ^ cv.width ≤ 2 ^ cv.width - 1)) ∧
      cv'.Count cell = done (min (c + value % 2 ^ cv.width) (2 ^ cv.width - 1))) ∧
    (value % 2 ^ cv.width ≠ 0 →
      cv.Increment cell value = cv.Increment cell (value % 2 ^ cv.width)) ∧
    (value % 2 ^ cv.width = 0 → cv.Increment cell value = done (cv, true)) := by
  have hc := size_cell cv n cell hw1 hsize hcell
  have hb := cell_bound _ _ _ hc
  have hp : 0 < 2 ^ cv.width := Nat.two_pow_pos _
  have hf : fnVal (effBit value) cv.width = value % 2 ^ cv.width :=
    fnVal_effBit cv.width value (Or.inl hw)
  have hsat := satAdd_val (cell * cv.width) (effBit value) cv.width cv.bits hb
  rw [hf] at hsat
  have hlen := satAddBits_length (cell * cv.width) cv.width (effBit value) cv.bits
  have hclt := cellVal_lt cv.bits (cell * cv.width) cv.width
  have hinc := Increment_eq cv cell value hw1 (by omega) hc hv
  refine ⟨⟨cellVal cv.bits (cell * cv.width) cv.width,
    ⟨satAddBits (cell * cv.width) cv.width (effBit value) cv.bits, cv.width⟩,
    Count_eq cv cell hw1 (by omega) hc, Max_eq cv hw1 (by omega), ?_, ?_⟩, ?_, ?_⟩
  · rw [hinc, hsat.1]
    congr 2
    rw [← decide_not]
    apply decide_eq_decide.mpr
    omega
  · rw [Count_mk _ _ _ hw1 (by omega) (by rw [hlen]; exact hc), satAddBits_val _ _ _ _ hb, hf]
  · intro hne
    rw [hinc, Increment_eq cv cell (value % 2 ^ cv.width) hw1 (by omega) hc hne]
    have hrip : ripple (cell * cv.width) (effBit value) cv.width cv.bits
        = ripple (cell * cv.width) (effBit (value % 2 ^ cv.width)) cv.width cv.bits :=
      ripple_congr _ _ _ _ _ (fun i hi => effBit_mod cv.width value hw i hi)
    simp only [satAddBits, hrip]
  · intro hz
    rw [hz, Nat.add_zero] at hsat
    have hcarry : (ripple (cell * cv.width) (effBit value) cv.width cv.bits).2 = false := by
      rw [hsat.1]
      exact decide_eq_false (by omega)
    have hbits : satAddBits (cell * cv.width) cv.width (effBit value) cv.bits = cv.bits := by
      apply bits_eq_of_cell _ _ (cell * cv.width) cv.width hlen
        (satAddBits_getD_out _ _ _ _)
      rw [satAddBits_val _ _ _ _ hb, hf, hz, Nat.add_zero]
      omega
    rw [hinc, hbits, hcarry]
    rfl

/-- C20, witness: width 2, count 1, value 8 (a multiple of 4): the vector is unchanged and
the call returns `true`. -/
theorem Increment_reads_low_bits_witness :
    (CounterVector.mk [true, false] 2).Increment 0 8
      = done (CounterVector.mk [true, false] 2, true) :=
  (Increment_reads_low_bits ⟨[true, false], 2⟩ 1 0 8 (by decide) (by decide) (by decide)
    (by decide) (by decide)).2.2 (by decide)

/-- C19 (as amended): for three counter vectors `x`, `y`, `z` of equal width (`≥ 1`) and equal
cell count `n` (each packed into `width * n` bits), `(x | y) | z` and `x | (y | z)` return one
and the same counter vector, also when an intermediate merge saturates; and for
`width ≤ 64` every cell of it counts `min(Count_x + Count_y + Count_z, Max())`. -/
theorem or_associative (x y z : CounterVector) (n : Nat) (hw1 : 1 ≤ x.width)
    (hxy : x.Width = y.Width) (hyz : y.Width = z.Width) (hx : x.bits.length = x.width * n)
    (hy : y.bits.length = y.width * n) (hz : z.bits.length = z.width * n) :
    ∃ v, (do let xy ← x.or y
             xy.or z) = done v ∧
      (do let yz ← y.or z
          x.or yz) = done v ∧
      (x.width ≤ 64 → ∃ m, x.Max = done m ∧ ∀ c, c < n → ∃ cx cy cz,
        x.Count c = done cx ∧ y.Count c = done cy ∧ z.Count c = done cz ∧
        v.Count c = done (min (cx + cy + cz) m)) := by
  rcases x with ⟨bx, w⟩
  rcases y with ⟨bY, wy⟩
  rcases z with ⟨bz, wz⟩
  simp only [CounterVector.Width] at hxy hyz
  subst hxy
  subst hyz
  simp only at hw1 hx hy hz
  have hlxy : (mergeBits w bY n bx).length = w * n := by rw [mergeBits_length, hx]
  have hlyz : (mergeBits w bz n bY).length = w * n := by rw [mergeBits_length, hy]
  have hmx : n * w ≤ bx.length := by rw [hx, Nat.mul_comm]
  have hmy : n * w ≤ bY.length := by rw [hy, Nat.mul_comm]
  have hmxy : n * w ≤ (mergeBits w bY n bx).length := by rw [hlxy, Nat.mul_comm]
  have hcell : ∀ c, c < n →
      cellVal (mergeBits w bz n (mergeBits w bY n bx)) (c * w) w
        = min (cellVal bx (c * w) w + cellVal bY (c * w) w + cellVal bz (c * w) w)
            (2 ^ w - 1) := by
    intro c hc
    rw [mergeBits_val _ _ _ _ _ hc hmxy, mergeBits_val _ _ _ _ _ hc hmx]
    omega
  have heq : mergeBits w bz n (mergeBits w bY n bx) = mergeBits w (mergeBits w bz n bY) n bx := by
    apply bits_ext_cells _ _ w n (by rw [mergeBits_length, hlxy]) (by rw [mergeBits_length, hx])
    intro c hc
    have h1 := cellVal_lt bx (c * w) w
    have h2 := cellVal_lt bY (c * w) w
    have h3 := cellVal_lt bz (c * w) w
    rw [hcell c hc, mergeBits_val _ _ _ _ _ hc hmx, mergeBits_val _ _ _ _ _ hc hmy]
    omega
  have hdiv : ∀ l : List Bool, l.length = w * n → l.length / w = n := by
    intro l hl
    rw [hl]
    exact Nat.mul_div_cancel_left n hw1
  refine ⟨⟨mergeBits w bz n (mergeBits w bY n bx), w⟩, ?_, ?_, ?_⟩
  · rw [or_mk bx bY w n hw1 hx hy]
    exact or_mk _ bz w n hw1 hlxy hz
  · rw [or_mk bY bz w n hw1 hy hz, heq]
    exact or_mk bx _ w n hw1 hx hlyz
  · intro hw
    refine ⟨2 ^ w - 1, Max_mk bx w hw1 hw, fun c hc => ?_⟩
    refine ⟨cellVal bx (c * w) w, cellVal bY (c * w) w, cellVal bz (c * w) w,
      Count_mk bx w c hw1 hw (by rw [hdiv bx hx]; exact hc),
      Count_mk bY w c hw1 hw (by rw [hdiv bY hy]; exact hc),
      Count_mk bz w c hw1 hw (by rw [hdiv bz hz]; exact hc), ?_⟩
    rw [Count_mk _ w c hw1 hw (by rw [hdiv _ (by rw [mergeBits_length, hlxy])]; exact hc),
      hcell c hc]

/-- C19, witness: width 2, one cell; `2 | 2` saturates at 3, and both groupings of
`2 | 2 | 1` give 3. -/
theorem or_associative_witness :
    ∃ v, (do let xy ← (CounterVector.mk [false, true] 2).or (CounterVector.mk [false, true] 2)
             xy.or (CounterVector.mk [true, false] 2)) = done v ∧
      (do let yz ← (CounterVector.mk [false, true] 2).or (CounterVector.mk [true, false] 2)
          (CounterVector.mk [false, true] 2).or yz) = done v ∧
      (2 ≤ 64 → ∃ m, (CounterVector.mk [false, true] 2).Max = done m ∧ ∀ c, c < 1 → ∃ cx cy cz,
        (CounterVector.mk [false, true] 2).Count c = done cx ∧
        (CounterVector.mk [false, true] 2).Count c = done cy ∧
        (CounterVector.mk [true, false] 2).Count c = done cz ∧
        v.Count c = done (min (cx + cy + cz) m)) :=
  or_associative ⟨[false, true], 2⟩ ⟨[false, true], 2⟩ ⟨[true, false], 2⟩ 1 (by decide)
    (by decide) (by decide) (by decide) (by decide) (by decide)

/-- C19, counterexample: with width 65 and the cells `2^64 - 1`, `1` and `0`, both groupings
give the bit pattern of `2^64`, which `Count` reads as 0 (its accumulator has 64 bits),
whereas `Count_x + Count_y + Count_z = 2^64`; and `Max()` is an undefined shift. -/
theorem or_grouping_wide_count :
    (do let xy ← (CounterVector.mk (List.replicate 64 true ++ [false]) 65).or
          (CounterVector.mk (true :: List.replicate 64 false) 65)
        let v ← xy.or (CounterVector.new 65 1)
        v.Count 0) = done 0 ∧
    (CounterVector.mk (List.replicate 64 true ++ [false]) 65).Count 0 = done (2 ^ 64 - 1) ∧
    (CounterVector.mk (true :: List.replicate 64 false) 65).Count 0 = done 1 ∧
    (CounterVector.new 65 1).Count 0 = done 0 ∧
    (CounterVector.mk (List.replicate 64 true ++ [false]) 65).Max = undefinedBehaviour := by
  decide

/-- C15: for wrapped filters `x` and `y` whose underlying filters are of different concrete
variants, `DoMerge<T>(x, y)` reports the type-mismatch internal error and yields no merged
filter, for every variant `T` and whatever `T::Merge` and `Typify` would do (they are not
reached); and `DoMerge<T>` yields a merged filter only if both operands' filters are of
variant `T`, and it does yield one when they are and `T::Merge` and `Typify` succeed. -/
theorem DoMerge_checks_variants (T : FilterKind)
    (Merge : FilterKind → BloomFilter → BloomFilter → Outcome BloomFilter)
    (Typify : BloomFilterVal → Option Nat → Option BloomFilterVal) (x y : BloomFilterVal) :
    (x.bloom_filter_.typeid ≠ y.bloom_filter_.typeid →
      DoMerge T Merge Typify x y
        = done (MergeResult.internalError InternalErrorMsg.cannotMergeDifferentTypes)) ∧
    (∀ v, DoMerge T Merge Typify x y = done (MergeResult.merged v) →
      x.bloom_filter_.typeid = T ∧ y.bloom_filter_.typeid = T) ∧
    (x.bloom_filter_.typeid = T → y.bloom_filter_.typeid = T → ∀ bf typed,
      Merge T x.bloom_filter_ y.bloom_filter_ = done bf →
      Typify ⟨none, bf⟩ x.type_ = some typed →
      DoMerge T Merge Typify x y = done (MergeResult.merged typed)) := by
  refine ⟨?_, ?_, ?_⟩
  · intro h
    simp only [DoMerge, h, ne_eq, not_false_eq_true, if_true, pure_eq]
  · intro v hv
    by_cases h1 : x.bloom_filter_.typeid = y.bloom_filter_.typeid
    · by_cases h2 : T = x.bloom_filter_.typeid
      · exact ⟨h2.symm, by rw [← h1]; exact h2.symm⟩
      · rw [DoMerge, if_neg (not_not.mpr h1), if_pos h2] at hv
        cases hv
    · rw [DoMerge, if_pos h1] at hv
      cases hv
  · intro hx hy bf typed hm ht
    rw [DoMerge, if_neg (not_not.mpr (hx.trans hy.symm)), if_neg (not_not.mpr hx.symm), hm]
    simp only [done_bind, ht, pure_eq]

/-- C16: for every counter vector `v` (its width a `size_t`), `DoUnserialize` applied to the
stream written by `DoSerialize(v)` succeeds and yields `v` itself, the same width and the same
bits and hence the same counts, leaving what follows in the stream. The reader takes the
fields in the order the writer emits them: the bits, then the width. -/
theorem DoSerialize_DoUnserialize (v : CounterVector) (rest : List SerialField)
    (hw : v.width < 2 ^ 64) :
    ∃ out, v.DoSerialize [] = some out ∧
      out = [SerialField.serialObj, SerialField.bitVector v.bits, SerialField.uint64 v.width] ∧
      CounterVector.DoUnserialize (out ++ rest) = some (v, rest) := by
  have hm : v.width % 2 ^ 64 = v.width := Nat.mod_eq_of_lt hw
  refine ⟨[SerialField.serialObj, SerialField.bitVector v.bits, SerialField.uint64 v.width],
    ?_, rfl, ?_⟩
  · have h : v.DoSerialize [] = some [SerialField.serialObj, SerialField.bitVector v.bits,
        SerialField.uint64 (v.width % 2 ^ 64 % 2 ^ 64)] := rfl
    rw [h, hm, hm]
  · have h : CounterVector.DoUnserialize
        ([SerialField.serialObj, SerialField.bitVector v.bits, SerialField.uint64 v.width]
          ++ rest) = some (⟨v.bits, v.width % 2 ^ 64⟩, rest) := rfl
    rw [h, hm]

/-- C16, witness: a width-2 vector with the cells 0 and 3 (the maximum). -/
theorem DoSerialize_DoUnserialize_witness :
    ∃ out, (CounterVector.mk [false, false, true, true] 2).DoSerialize [] = some out ∧
      out = [SerialField.serialObj, SerialField.bitVector [false, false, true, true],
        SerialField.uint64 2] ∧
      CounterVector.DoUnserialize (out ++ []) = some (CounterVector.mk [false, false, true, true] 2, []) :=
  DoSerialize_DoUnserialize ⟨[false, false, true, true], 2⟩ [] (by decide)

end probabilistic
